import Mathlib

/-!
Verification of the conversation-state and PII masking core of `nlip_soln`.

The development shallowly embeds the two stateful subsystems of the
repository:

* `nlip_soln/mcp/client/detector.py` — the `PIIDetector` class with its
  `detect_pii`, `mask`, `unmask` and `clear_session` operations.  Texts are
  `List Char`; the external classifier (an Ollama call) is passed in as an
  explicit outcome value; the random `uuid` fragments used for placeholder
  identifiers and session identifiers are injected as parameters.
* `nlip_soln/chat2/stateful_chatbot.py` — `ChatApplication` (the
  correlator-keyed store with `retrieve_session_data`, `store_session_data`
  and `purge_old`) and `ChatSession.execute`; `time.time()` is passed in as
  an explicit clock value and `StatefulGenAI` instances are modelled by
  allocation tokens (`Nat`).
* `nlip_soln/mcp/client/client.py` — `MCPClient.process_query` and one
  iteration of `chat_loop`, with the generation call passed in as an
  explicit fallible function.

Python dictionaries are modelled by insertion-ordered association lists with
unique keys; `str.replace` is modelled by a leftmost, non-overlapping
replace-all on `List Char`.
-/

abbrev Str := List Char

/-- `leads pat s` is true when `pat` is an initial segment of `s`
(the test Python performs at each scan position of `str.replace`). -/
def leads (pat : Str) (s : Str) : Bool :=
  match pat, s with
  | [], _ => true
  | _ :: _, [] => false
  | a :: as, b :: bs => a == b && leads as bs

/-- `inStr pat s` mirrors Python's substring test `pat in s`. -/
def inStr (pat : Str) : Str → Bool
  | [] => pat.isEmpty
  | c :: cs => leads pat (c :: cs) || inStr pat cs

/-- `s` contains neither `'['` nor `']'`. -/
def noBr (s : Str) : Bool :=
  s.all fun c => !(c == '[') && !(c == ']')

/-- Worker for `replaceAll`.  The counter records how many characters of a
just-replaced occurrence remain to be skipped; the scan never re-examines
replacement text, exactly as Python's `str.replace` does. -/
def replaceAllGo (pat rep : Str) : Str → Nat → Str
  | [], _ => []
  | c :: cs, 0 =>
      if !pat.isEmpty && leads pat (c :: cs) then
        rep ++ replaceAllGo pat rep cs (pat.length - 1)
      else
        c :: replaceAllGo pat rep cs 0
  | _ :: cs, k + 1 => replaceAllGo pat rep cs k

/-- Python's `s.replace(pat, rep)`: replace every leftmost, non-overlapping
occurrence of `pat` in `s` by `rep`.  (The code under verification never
calls `str.replace` with an empty pattern.) -/
def replaceAll (pat rep s : Str) : Str :=
  replaceAllGo pat rep s 0

/-- Python whitespace, as stripped by `str.strip()`. -/
def pySpace (c : Char) : Bool :=
  c == ' ' || c == '\t' || c == '\n' || c == '\r' || c == '\x0b' || c == '\x0c'

/-- Python `str.strip()`. -/
def pyStrip (s : Str) : Str :=
  ((s.dropWhile pySpace).reverse.dropWhile pySpace).reverse

/-- Python `str.upper()` (ASCII case mapping suffices for the verified code). -/
def pyUpper (s : Str) : Str := s.map Char.toUpper

/-- Python `str.lower()` (ASCII case mapping suffices for the verified code). -/
def pyLower (s : Str) : Str := s.map Char.toLower

section AList

variable {κ : Type} {ν : Type} [DecidableEq κ]

/-- Dictionary lookup `m.get(k)` on an insertion-ordered association list. -/
def alGet (m : List (κ × ν)) (k : κ) : Option ν :=
  match m with
  | [] => none
  | (k', v) :: rest => if k' = k then some v else alGet rest k

/-- Dictionary assignment `m[k] = v`: update in place if the key exists,
otherwise append at the end (Python dicts preserve insertion order). -/
def alSet (m : List (κ × ν)) (k : κ) (v : ν) : List (κ × ν) :=
  match m with
  | [] => [(k, v)]
  | (k', v') :: rest => if k' = k then (k, v) :: rest else (k', v') :: alSet rest k v

/-- Dictionary deletion `del m[k]` / `m.pop(k, None)`. -/
def alDel (m : List (κ × ν)) (k : κ) : List (κ × ν) :=
  m.filter fun kv => kv.1 ≠ k

end AList

/-! ## PIIDetector (`nlip_soln/mcp/client/detector.py`) -/

/-- One entry of the `pii_items` list produced by the classifier:
`{"value": ..., "type": ...}` (with the `.get` defaults already applied). -/
structure RawItem where
  value : Str
  type : Str
deriving DecidableEq, Repr

/-- The observable behaviour of the `ollama.chat` call inside
`_check_with_ollama`: it raises, returns JSON-parsable content (field
defaults already applied), or returns content that fails JSON parsing. -/
inductive ChatOutcome where
  | raises (e : String)
  | returnsJson (has_pii : Bool) (types : List Str) (confidence : Str)
  | returnsUnparsable (content : Str)

/-- Result dictionary of `_check_with_ollama` / `detect_pii`
(the `error` key of the failure branch is dropped as unobserved). -/
structure DetectResult where
  has_pii : Bool
  types : List Str
  confidence : Str
  text : Str
deriving DecidableEq, Repr

/-- `PIIDetector._check_with_ollama`: JSON path, indicator-word fallback on a
parse failure, and the fail-open `except` branch. -/
def check_with_ollama (outcome : ChatOutcome) : DetectResult :=
  match outcome with
  | .raises _ => ⟨false, [], "low".toList, []⟩
  | .returnsJson h t c => ⟨h, t, c, []⟩
  | .returnsUnparsable content =>
      let lowered := pyLower content
      let h := ["true".toList, "yes".toList, "found".toList, "detected".toList].any
        fun ind => inStr ind lowered
      ⟨h, if h then ["unknown".toList] else [], "low".toList, []⟩

/-- `PIIDetector.detect_pii`. -/
def detect_pii (text : Str) (outcome : ChatOutcome) : DetectResult :=
  let f := check_with_ollama outcome
  ⟨f.has_pii, f.types, f.confidence, text⟩

/-- The mutable state of a `PIIDetector` instance:
`pii_mappings : {session_id: {placeholder: original_value}}`. -/
structure PIIDetector where
  pii_mappings : List (String × List (Str × Str))
deriving DecidableEq, Repr

/-- Result dictionary of `PIIDetector.mask`
(the `error` key of the failure branch is dropped as unobserved). -/
structure MaskResult where
  masked_text : Str
  session_id : String
  mappings_count : Nat
  placeholder_map : List (Str × Str)
deriving DecidableEq, Repr

/-- `f"[{pii_type.upper()}_{placeholder_id}]"`. -/
def mkPlaceholder (ty id8 : Str) : Str :=
  '[' :: (pyUpper ty ++ '_' :: id8) ++ [']']

/-- The `for item in pii_items` loop of `PIIDetector.mask`, threading the
mappings table, the progressively masked text, the `placeholder_map` and the
count of placeholder identifiers consumed so far. -/
def maskItems (text : Str) (sid : String) (ids : Nat → Str) :
    List RawItem →
    List (String × List (Str × Str)) × Str × List (Str × Str) × Nat →
    List (String × List (Str × Str)) × Str × List (Str × Str) × Nat
  | [], acc => acc
  | it :: rest, (tbl, masked, pmap, k) =>
      let v := pyStrip it.value
      let ty := pyLower it.type
      if !v.isEmpty && inStr v text then
        let ph := mkPlaceholder ty (ids k)
        maskItems text sid ids rest
          (alSet tbl sid (alSet ((alGet tbl sid).getD []) ph v),
           replaceAll v ph masked,
           alSet pmap v ph,
           k + 1)
      else
        maskItems text sid ids rest (tbl, masked, pmap, k)

/-- `PIIDetector.mask`.  `session_id = none` models the `None` default, in
which case the injected fresh uuid `freshSid` is used; `classifier` is the
outcome of the `ollama.chat` + parse chain (`.error` when the chat call
raises); `ids` supplies the `str(uuid.uuid4())[:8]` placeholder fragments in
order of consumption. -/
def PIIDetector.mask (d : PIIDetector) (text : Str) (session_id : Option String)
    (freshSid : String) (classifier : Except String (List RawItem))
    (ids : Nat → Str) : PIIDetector × MaskResult :=
  let sid := session_id.getD freshSid
  match classifier with
  | .error _ =>
      (d, ⟨text, sid, 0, []⟩)
  | .ok pii_items =>
      let tbl :=
        if (alGet d.pii_mappings sid).isNone then alSet d.pii_mappings sid []
        else d.pii_mappings
      let r := maskItems text sid ids pii_items (tbl, text, [], 0)
      (⟨r.1⟩, ⟨r.2.1, sid, r.2.2.1.length, r.2.2.1⟩)

/-- `PIIDetector.unmask`. -/
def PIIDetector.unmask (d : PIIDetector) (masked_text : Str) (session_id : String) : Str :=
  match alGet d.pii_mappings session_id with
  | none => masked_text
  | some mappings =>
      mappings.foldl (fun acc pv => replaceAll pv.1 pv.2 acc) masked_text

/-- `PIIDetector.clear_session`. -/
def PIIDetector.clear_session (d : PIIDetector) (session_id : String) :
    PIIDetector × Bool :=
  if (alGet d.pii_mappings session_id).isSome then
    (⟨alDel d.pii_mappings session_id⟩, true)
  else
    (d, false)

/-! ## ChatApplication and ChatSession (`nlip_soln/chat2/stateful_chatbot.py`) -/

/-- The two module-level tables of `ChatApplication`: `session_dict` maps a
correlator to its `StatefulGenAI` instance (modelled by an allocation token)
and `touched` maps a correlator to its last-touch time. -/
structure ChatApplication where
  session_dict : List (String × Nat)
  touched : List (String × Int)
deriving DecidableEq, Repr

/-- `ChatApplication.retrieve_session_data` at clock value `now`:
returns the looked-up entry and touches the correlator. -/
def retrieve_session_data (app : ChatApplication) (correlator : String)
    (now : Int) : Option Nat × ChatApplication :=
  (alGet app.session_dict correlator,
   { app with touched := alSet app.touched correlator now })

/-- `ChatApplication.store_session_data` at clock value `now`. -/
def store_session_data (app : ChatApplication) (correlator : String)
    (session_data : Nat) (now : Int) : ChatApplication :=
  ⟨alSet app.session_dict correlator session_data,
   alSet app.touched correlator now⟩

/-- Outcome of `ChatApplication.purge_old`: the tables after the call,
plus the exception it raised, if any. -/
structure PurgeResult where
  app : ChatApplication
  error : Option String
deriving DecidableEq, Repr

/-- The `for x in self.touched.keys()` loop of `purge_old`.  CPython's dict
key iterator raises `RuntimeError` on the next `__next__` call (including
the final, exhausting one) whenever the dictionary's size has changed since
the iterator was created, which the `mutated` flag records: the first `pop`
makes the very next iteration step raise. -/
def purgeGo (now : Int) : List String → ChatApplication → Bool → PurgeResult
  | [], app, mutated =>
      if mutated then ⟨app, some "dictionary changed size during iteration"⟩
      else ⟨app, none⟩
  | x :: rest, app, mutated =>
      if mutated then ⟨app, some "dictionary changed size during iteration"⟩
      else
        match alGet app.touched x with
        | some t =>
            if now - t > 3600 then
              purgeGo now rest ⟨alDel app.session_dict x, alDel app.touched x⟩ true
            else purgeGo now rest app false
        | none => purgeGo now rest app false

/-- `ChatApplication.purge_old` at clock value `now`. -/
def purge_old (app : ChatApplication) (now : Int) : PurgeResult :=
  purgeGo now (app.touched.map Prod.fst) app false

/-- The inbound message, reduced to the fields `ChatSession.execute`
consumes: its text and its list of token-format fields (correlators). -/
structure InMsg where
  text : Str
  tokens : List String

/-- The outbound `NLIP_Message`, reduced to the fields `execute` fills:
the response text and the correlator submessage. -/
structure OutMsg where
  content : Str
  correlator : String
deriving DecidableEq, Repr

/-- Correlator selection at the top of `execute`: the first token field if
one is present, otherwise a freshly generated uuid. -/
def execCorrelator (msg : InMsg) (freshCorr : String) : String :=
  match msg.tokens with
  | [] => freshCorr
  | c :: _ => c

/-- Lines 67–70 of `stateful_chatbot.py`: retrieve the session data for the
correlator and, when absent, construct a new `StatefulGenAI` (the injected
allocation token `fresh`) and store it. -/
def resolve_state (app : ChatApplication) (correlator : String) (now : Int)
    (fresh : Nat) : ChatApplication × Nat :=
  let (found, app) := retrieve_session_data app correlator now
  match found with
  | some cs => (app, cs)
  | none => (store_session_data app correlator fresh now, fresh)

/-- `ChatSession.execute`.  `chatFn` is the backend `chat` call of the
resolved `StatefulGenAI` instance (`.error` models a raised exception);
the method has no exception handler, so a failure of the chat call
propagates, with every state mutation made before the call kept. -/
def ChatSession.execute (app : ChatApplication) (msg : InMsg) (freshCorr : String)
    (chatFn : Nat → Str → Except String Str) (now : Int) (fresh : Nat) :
    ChatApplication × Except String OutMsg :=
  let correlator := execCorrelator msg freshCorr
  let (app, chat_server) := resolve_state app correlator now fresh
  match chatFn chat_server msg.text with
  | .error e => (app, .error e)
  | .ok resp => (app, .ok ⟨resp, correlator⟩)

/-! ## MCPClient (`nlip_soln/mcp/client/client.py`) -/

/-- The client state `process_query` mutates: the detector instance and
`current_session_id`. -/
structure MCPState where
  detector : PIIDetector
  current_session_id : Option String

/-- The BLOCK-mode warning text of `process_query` (the typed placeholder
list is elided; only its presence matters to the verified claims). -/
def blockWarning : Str :=
  "WARNING: Your message contains sensitive personal information".toList

/-- `MCPClient.process_query`.  `gen` is `_process_masked_query` (the only
step of the turn that can raise); a raised exception propagates to the
caller with all state mutations made before it kept. -/
def process_query (st : MCPState) (query : Str) (detectOutcome : ChatOutcome)
    (maskClassifier : Except String (List RawItem)) (ids : Nat → Str)
    (freshSid : String) (gen : Str → Except String Str) (block : Bool) :
    MCPState × Except String Str :=
  let pii := detect_pii query detectOutcome
  if pii.has_pii then
    if block then (st, .ok blockWarning)
    else
      let (d, mr) := st.detector.mask query st.current_session_id freshSid
        maskClassifier ids
      let st' : MCPState := ⟨d, some mr.session_id⟩
      match gen mr.masked_text with
      | .error e => (st', .error e)
      | .ok resp => (st', .ok (st'.detector.unmask resp mr.session_id))
  else
    match gen query with
    | .error e => (st, .error e)
    | .ok resp => (st, .ok resp)

/-- One iteration of `MCPClient.chat_loop` on a non-quit query: the
`try/except` around `process_query` converts any raised exception into the
printed text `f"Error: {str(e)}"`. -/
def chat_loop_step (st : MCPState) (query : Str) (detectOutcome : ChatOutcome)
    (maskClassifier : Except String (List RawItem)) (ids : Nat → Str)
    (freshSid : String) (gen : Str → Except String Str) (block : Bool) :
    MCPState × Str :=
  let (st', out) := process_query st query detectOutcome maskClassifier ids
    freshSid gen block
  match out with
  | .ok r => (st', r)
  | .error e => (st', "Error: ".toList ++ e.toList)

/-! ## Basic lemmas about the string primitives -/

theorem leads_iff {pat s : Str} : leads pat s = true ↔ ∃ t, s = pat ++ t := by
  induction pat generalizing s with
  | nil => simp [leads]
  | cons a as ih =>
    cases s with
    | nil =>
      simp only [leads, Bool.false_eq_true, false_iff]
      rintro ⟨t, ht⟩
      exact absurd ht (by simp)
    | cons b bs =>
      simp only [leads, Bool.and_eq_true, beq_iff_eq, ih]
      constructor
      · rintro ⟨rfl, t, rfl⟩; exact ⟨t, rfl⟩
      · rintro ⟨t, ht⟩
        injection ht with h1 h2
        exact ⟨h1.symm, t, h2⟩

theorem leads_append_self {pat t : Str} : leads pat (pat ++ t) = true :=
  leads_iff.mpr ⟨t, rfl⟩

theorem leads_length {pat s : Str} (h : leads pat s = true) :
    pat.length ≤ s.length := by
  obtain ⟨t, rfl⟩ := leads_iff.mp h
  simp

theorem leads_split {pat a b : Str} (h : leads pat (a ++ b) = true) :
    leads pat a = true ∨ ∃ p2, pat = a ++ p2 ∧ p2 ≠ [] ∧ leads p2 b = true := by
  obtain ⟨t, ht⟩ := leads_iff.mp h
  by_cases hle : pat.length ≤ a.length
  · left
    have : pat = (a ++ b).take pat.length := by
      rw [ht]; simp
    rw [List.take_append_of_le_length hle] at this
    refine leads_iff.mpr ⟨a.drop pat.length, ?_⟩
    conv_lhs => rw [← List.take_append_drop pat.length a, ← this]
  · right
    push_neg at hle
    refine ⟨b.take (pat.length - a.length), ?_, ?_, ?_⟩
    · have : pat = (a ++ b).take pat.length := by rw [ht]; simp
      rw [List.take_append_eq_append_take,
        List.take_of_length_le (le_of_lt hle)] at this
      exact this
    · have hbl : pat.length ≤ a.length + b.length := by
        have := leads_length h; simpa using this
      have h1 : 0 < pat.length - a.length := by omega
      have h2 : 0 < b.length := by omega
      apply List.length_pos.mp
      rw [List.length_take]
      omega
    · exact leads_iff.mpr ⟨b.drop (pat.length - a.length), by simp⟩

theorem leads_append_of_leads {pat a : Str} (b : Str) (h : leads pat a = true) :
    leads pat (a ++ b) = true := by
  obtain ⟨t, rfl⟩ := leads_iff.mp h
  exact leads_iff.mpr ⟨t ++ b, by simp⟩

theorem inStr_iff {pat s : Str} : inStr pat s = true ↔ ∃ u w, s = u ++ pat ++ w := by
  induction s with
  | nil =>
    simp only [inStr, List.isEmpty_iff]
    constructor
    · rintro rfl; exact ⟨[], [], rfl⟩
    · rintro ⟨u, w, h⟩
      rcases List.append_eq_nil.mp h.symm with ⟨h1, h2⟩
      exact (List.append_eq_nil.mp h1).2
  | cons c cs ih =>
    simp only [inStr, Bool.or_eq_true, ih, leads_iff]
    constructor
    · rintro (⟨t, ht⟩ | ⟨u, w, rfl⟩)
      · exact ⟨[], t, by simp [ht]⟩
      · exact ⟨c :: u, w, rfl⟩
    · rintro ⟨u, w, hw⟩
      cases u with
      | nil => exact Or.inl ⟨w, by simpa using hw⟩
      | cons x xs =>
        injection hw with h1 h2
        exact Or.inr ⟨xs, w, h2⟩

theorem inStr_of_leads {pat s : Str} (h : leads pat s = true) : inStr pat s = true := by
  obtain ⟨t, rfl⟩ := leads_iff.mp h
  exact inStr_iff.mpr ⟨[], t, rfl⟩

theorem inStr_subset {pat s : Str} (h : inStr pat s = true) : ∀ x ∈ pat, x ∈ s := by
  obtain ⟨u, w, rfl⟩ := inStr_iff.mp h
  intro x hx
  simp [hx]

theorem noBr_lb {s : Str} (h : noBr s = true) : '[' ∉ s := by
  intro hm
  have := List.all_eq_true.mp h _ hm
  simp at this

theorem noBr_rb {s : Str} (h : noBr s = true) : ']' ∉ s := by
  intro hm
  have := List.all_eq_true.mp h _ hm
  simp at this

theorem noBr_of_subset {s t : Str} (hsub : ∀ x ∈ t, x ∈ s) (h : noBr s = true) :
    noBr t = true :=
  List.all_eq_true.mpr fun x hx => List.all_eq_true.mp h x (hsub x hx)

theorem noBr_append {a b : Str} : noBr (a ++ b) = (noBr a && noBr b) := by
  simp [noBr, List.all_append]

theorem noBr_of_inStr {pat s : Str} (hs : noBr s = true) (h : inStr pat s = true) :
    noBr pat = true :=
  noBr_of_subset (inStr_subset h) hs

theorem noBr_drop {s : Str} (n : Nat) (h : noBr s = true) : noBr (s.drop n) = true :=
  noBr_of_subset (fun _ hx => List.mem_of_mem_drop hx) h

/-! ## Equations for the replace-all scan -/

theorem rAG_nil (pat rep : Str) (k : Nat) : replaceAllGo pat rep [] k = [] := rfl

theorem rAG_skip (pat rep : Str) (c : Char) (cs : Str) (k : Nat) :
    replaceAllGo pat rep (c :: cs) (k + 1) = replaceAllGo pat rep cs k := rfl

theorem rAG_zero (pat rep : Str) (c : Char) (cs : Str) :
    replaceAllGo pat rep (c :: cs) 0 =
      if !pat.isEmpty && leads pat (c :: cs) then
        rep ++ replaceAllGo pat rep cs (pat.length - 1)
      else c :: replaceAllGo pat rep cs 0 := rfl

theorem rAG_drop (pat rep : Str) : ∀ (s : Str) (k : Nat),
    replaceAllGo pat rep s k = replaceAllGo pat rep (s.drop k) 0 := by
  intro s
  induction s with
  | nil => intro k; simp [rAG_nil]
  | cons c cs ih =>
    intro k
    cases k with
    | zero => rfl
    | succ k => rw [rAG_skip, ih k, List.drop_succ_cons]

theorem rAG_match (pat rep : Str) {s : Str} (hne : pat ≠ [])
    (hl : leads pat s = true) :
    replaceAllGo pat rep s 0 = rep ++ replaceAllGo pat rep (s.drop pat.length) 0 := by
  cases s with
  | nil =>
    cases pat with
    | nil => exact absurd rfl hne
    | cons x xs => simp [leads] at hl
  | cons c cs =>
    rw [rAG_zero]
    have hcond : (!pat.isEmpty && leads pat (c :: cs)) = true := by
      simp [List.isEmpty_iff, hne, hl]
    rw [if_pos hcond, rAG_drop pat rep cs (pat.length - 1)]
    have hlen : 0 < pat.length := List.length_pos.mpr hne
    have : (c :: cs).drop pat.length = cs.drop (pat.length - 1) := by
      conv_lhs => rw [show pat.length = (pat.length - 1) + 1 by omega]
      exact List.drop_succ_cons
    rw [this]

theorem rAG_nomatch (pat rep : Str) {c : Char} {cs : Str}
    (h : pat = [] ∨ leads pat (c :: cs) = false) :
    replaceAllGo pat rep (c :: cs) 0 = c :: replaceAllGo pat rep cs 0 := by
  rw [rAG_zero]
  rcases h with h | h
  · subst h; simp [List.isEmpty_iff]
  · simp [h]

theorem rAG_empty_pat (rep : Str) : ∀ s : Str, replaceAllGo [] rep s 0 = s := by
  intro s
  induction s with
  | nil => rfl
  | cons c cs ih => rw [rAG_nomatch [] rep (Or.inl rfl), ih]

/-- No scan position inside `q` starts an occurrence of `pat`, so the scan
copies `q` verbatim and continues on `t`. -/
theorem scan_through (pat rep : Str) :
    ∀ (q t : Str),
      (∀ z : Str, z ≠ [] → (∃ u, u ++ z = q) → leads pat (z ++ t) = false) →
      replaceAllGo pat rep (q ++ t) 0 = q ++ replaceAllGo pat rep t 0 := by
  intro q
  induction q with
  | nil => intro t _; simp
  | cons a q' ih =>
    intro t hz
    have hfalse : leads pat ((a :: q') ++ t) = false :=
      hz (a :: q') (by simp) ⟨[], rfl⟩
    have hz' : ∀ z : Str, z ≠ [] → (∃ u, u ++ z = q') → leads pat (z ++ t) = false := by
      intro z hzne hu
      obtain ⟨u, hu⟩ := hu
      exact hz z hzne ⟨a :: u, by rw [← hu]; rfl⟩
    rw [List.cons_append, rAG_nomatch pat rep (Or.inr (by simpa using hfalse)),
      ih t hz']
    rfl

/-! ## The ghost splitter: where the replace-all scan finds its occurrences -/

/-- `splGo pat s 0 = (h, [e₁, …, eₘ])` records the decomposition
`s = h ++ pat ++ e₁ ++ pat ++ ⋯ ++ pat ++ eₘ` along the leftmost,
non-overlapping occurrences of `pat` that the `replaceAllGo` scan replaces. -/
def splGo (pat : Str) : Str → Nat → Str × List Str
  | [], _ => ([], [])
  | c :: cs, 0 =>
      if !pat.isEmpty && leads pat (c :: cs) then
        ([], (splGo pat cs (pat.length - 1)).1 :: (splGo pat cs (pat.length - 1)).2)
      else
        (c :: (splGo pat cs 0).1, (splGo pat cs 0).2)
  | _ :: cs, k + 1 => splGo pat cs k

def spl (pat s : Str) : Str × List Str := splGo pat s 0

theorem splGo_drop (pat : Str) : ∀ (s : Str) (k : Nat),
    splGo pat s k = splGo pat (s.drop k) 0 := by
  intro s
  induction s with
  | nil => intro k; simp [splGo]
  | cons c cs ih =>
    intro k
    cases k with
    | zero => rfl
    | succ k => show splGo pat cs k = _; rw [ih k, List.drop_succ_cons]

theorem spl_nil (pat : Str) : spl pat [] = ([], []) := rfl

theorem spl_match (pat : Str) {s : Str} (hne : pat ≠ [])
    (hl : leads pat s = true) :
    spl pat s = ([], (spl pat (s.drop pat.length)).1 ::
      (spl pat (s.drop pat.length)).2) := by
  cases s with
  | nil =>
    cases pat with
    | nil => exact absurd rfl hne
    | cons x xs => simp [leads] at hl
  | cons c cs =>
    show splGo pat (c :: cs) 0 = _
    have hcond : (!pat.isEmpty && leads pat (c :: cs)) = true := by
      simp [List.isEmpty_iff, hne, hl]
    rw [splGo, if_pos hcond, splGo_drop pat cs (pat.length - 1)]
    have hlen : 0 < pat.length := List.length_pos.mpr hne
    have : (c :: cs).drop pat.length = cs.drop (pat.length - 1) := by
      conv_lhs => rw [show pat.length = (pat.length - 1) + 1 by omega]
      exact List.drop_succ_cons
    rw [this]
    rfl

theorem spl_nomatch (pat : Str) {c : Char} {cs : Str}
    (h : pat = [] ∨ leads pat (c :: cs) = false) :
    spl pat (c :: cs) = (c :: (spl pat cs).1, (spl pat cs).2) := by
  show splGo pat (c :: cs) 0 = _
  rw [splGo]
  rcases h with h | h
  · subst h
    simp only [List.isEmpty_nil, Bool.not_true, Bool.false_and, Bool.false_eq_true,
      if_false]
    rfl
  · simp only [h, Bool.and_false, Bool.false_eq_true, if_false]
    rfl

theorem spl_empty_pat : ∀ s : Str, spl [] s = (s, []) := by
  intro s
  induction s with
  | nil => rfl
  | cons c cs ih => rw [spl_nomatch [] (Or.inl rfl), ih]

theorem spl_join_aux (pat : Str) :
    ∀ (n : Nat) (s : Str), s.length ≤ n →
      (spl pat s).1 ++ (spl pat s).2.foldr (fun e acc => pat ++ e ++ acc) [] = s := by
  intro n
  induction n with
  | zero =>
    intro s hs
    have : s = [] := List.eq_nil_of_length_eq_zero (Nat.le_zero.mp hs)
    subst this; simp [spl_nil]
  | succ n ih =>
    intro s hs
    cases s with
    | nil => simp [spl_nil]
    | cons c cs =>
      by_cases hp : pat = []
      · subst hp; rw [spl_empty_pat]; simp
      · by_cases hl : leads pat (c :: cs) = true
        · rw [spl_match pat hp hl]
          obtain ⟨t, ht⟩ := leads_iff.mp hl
          have hdrop : (c :: cs).drop pat.length = t := by rw [ht, List.drop_left]
          have hlen : t.length ≤ n := by
            have h1 : (c :: cs).length ≤ n + 1 := hs
            have h2 : 0 < pat.length := List.length_pos.mpr hp
            rw [ht, List.length_append] at h1
            omega
          rw [hdrop]
          simp only [List.foldr_cons, List.nil_append, ht]
          rw [List.append_assoc, ih t hlen]
        · have hl' : pat = [] ∨ leads pat (c :: cs) = false :=
            Or.inr (by simpa using hl)
          rw [spl_nomatch pat hl']
          have hlen : cs.length ≤ n := by
            have : (c :: cs).length ≤ n + 1 := hs
            simpa using this
          simp only [List.cons_append, ih cs hlen]

theorem spl_join (pat s : Str) :
    (spl pat s).1 ++ (spl pat s).2.foldr (fun e acc => pat ++ e ++ acc) [] = s :=
  spl_join_aux pat s.length s le_rfl

theorem spl_noBr_aux (pat : Str) :
    ∀ (n : Nat) (s : Str), s.length ≤ n → noBr s = true →
      noBr (spl pat s).1 = true ∧ ∀ e ∈ (spl pat s).2, noBr e = true := by
  intro n
  induction n with
  | zero =>
    intro s hs _
    have : s = [] := List.eq_nil_of_length_eq_zero (Nat.le_zero.mp hs)
    subst this
    exact ⟨rfl, by simp [spl_nil]⟩
  | succ n ih =>
    intro s hs hnb
    cases s with
    | nil => exact ⟨rfl, by simp [spl_nil]⟩
    | cons c cs =>
      by_cases hp : pat = []
      · subst hp; rw [spl_empty_pat]; exact ⟨hnb, by simp⟩
      · by_cases hl : leads pat (c :: cs) = true
        · rw [spl_match pat hp hl]
          have hlen : ((c :: cs).drop pat.length).length ≤ n := by
            have h2 : 0 < pat.length := List.length_pos.mpr hp
            have h3 : (c :: cs).length ≤ n + 1 := hs
            rw [List.length_drop]
            omega
          have hnb' : noBr ((c :: cs).drop pat.length) = true :=
            noBr_drop pat.length hnb
          obtain ⟨ha, hb⟩ := ih _ hlen hnb'
          refine ⟨rfl, ?_⟩
          intro e he
          rcases List.mem_cons.mp he with rfl | he'
          · exact ha
          · exact hb e he'
        · have hl' : pat = [] ∨ leads pat (c :: cs) = false :=
            Or.inr (by simpa using hl)
          rw [spl_nomatch pat hl']
          have hlen : cs.length ≤ n := by
            have : (c :: cs).length ≤ n + 1 := hs
            simpa using this
          have hcs : noBr cs = true := by
            simp only [noBr, List.all_cons, Bool.and_eq_true] at hnb ⊢
            exact hnb.2
          obtain ⟨ha, hb⟩ := ih cs hlen hcs
          refine ⟨?_, hb⟩
          simp only [noBr, List.all_cons, Bool.and_eq_true] at hnb ⊢
          exact ⟨hnb.1, ha⟩

theorem spl_noBr (pat : Str) {s : Str} (h : noBr s = true) :
    noBr (spl pat s).1 = true ∧ ∀ e ∈ (spl pat s).2, noBr e = true :=
  spl_noBr_aux pat s.length s le_rfl h

/-- The replace-all scan over a chunk followed by text that is empty or
starts with `'['`: for a bracket-free pattern no occurrence straddles the
boundary, so the scan acts on the chunk exactly as the splitter says and
then continues on the remainder. -/
theorem chunk_scan_aux (pat rep : Str) (hpat : noBr pat = true) :
    ∀ (n : Nat) (c : Str), c.length ≤ n →
      ∀ t : Str, (t = [] ∨ ∃ t', t = '[' :: t') →
        replaceAllGo pat rep (c ++ t) 0 =
          (spl pat c).1 ++ (spl pat c).2.foldr (fun e acc => rep ++ e ++ acc)
            (replaceAllGo pat rep t 0) := by
  intro n
  induction n with
  | zero =>
    intro c hc t ht
    have : c = [] := List.eq_nil_of_length_eq_zero (Nat.le_zero.mp hc)
    subst this
    simp [spl_nil]
  | succ n ih =>
    intro c hc t ht
    cases c with
    | nil => simp [spl_nil]
    | cons a c' =>
      by_cases hp : pat = []
      · subst hp
        rw [spl_empty_pat, rAG_empty_pat, rAG_empty_pat]
        simp
      · by_cases hl : leads pat ((a :: c') ++ t) = true
        · -- a leftmost occurrence starts here; it cannot straddle into `t`
          have hlc : leads pat (a :: c') = true := by
            rcases leads_split hl with h | ⟨p2, hp2, hp2ne, hlp2⟩
            · exact h
            · exfalso
              rcases ht with rfl | ⟨t', rfl⟩
              · cases p2 with
                | nil => exact hp2ne rfl
                | cons x xs => simp [leads] at hlp2
              · cases p2 with
                | nil => exact hp2ne rfl
                | cons x xs =>
                  have hx : x = '[' := by
                    simp only [leads, Bool.and_eq_true, beq_iff_eq] at hlp2
                    exact hlp2.1
                  have : '[' ∈ pat := by
                    rw [hp2, hx]
                    simp
                  exact noBr_lb hpat this
          have hplen : pat.length ≤ (a :: c').length := leads_length hlc
          rw [rAG_match pat rep hp hl, spl_match pat hp hlc]
          have hdrop : ((a :: c') ++ t).drop pat.length =
              (a :: c').drop pat.length ++ t := by
            rw [List.drop_append_eq_append_drop,
              show pat.length - (a :: c').length = 0 by omega, List.drop_zero]
          have hlen : ((a :: c').drop pat.length).length ≤ n := by
            have h2 : 0 < pat.length := List.length_pos.mpr hp
            have h3 : (a :: c').length ≤ n + 1 := hc
            rw [List.length_drop]
            omega
          rw [hdrop, ih _ hlen t ht]
          simp only [List.foldr_cons, List.nil_append, List.append_assoc]
        · have hl' : pat = [] ∨ leads pat (a :: (c' ++ t)) = false :=
            Or.inr (by simpa using hl)
          have hlc' : pat = [] ∨ leads pat (a :: c') = false := by
            refine Or.inr ?_
            by_contra hcon
            have : leads pat (a :: c') = true := by
              cases hx : leads pat (a :: c')
              · exact absurd hx hcon
              · rfl
            exact hl (by simpa using leads_append_of_leads t this)
          rw [List.cons_append, rAG_nomatch pat rep hl']
          have hlen : c'.length ≤ n := by
            have : (a :: c').length ≤ n + 1 := hc
            simpa using this
          rw [show c' ++ t = c' ++ t from rfl] at *
          rw [ih c' hlen t ht, spl_nomatch pat hlc']
          simp only [List.cons_append]

theorem chunk_scan (pat rep : Str) (hpat : noBr pat = true) (c t : Str)
    (ht : t = [] ∨ ∃ t', t = '[' :: t') :
    replaceAllGo pat rep (c ++ t) 0 =
      (spl pat c).1 ++ (spl pat c).2.foldr (fun e acc => rep ++ e ++ acc)
        (replaceAllGo pat rep t 0) :=
  chunk_scan_aux pat rep hpat c.length c le_rfl t ht

/-- Any nonempty suffix of a placeholder block ends with `']'`. -/
theorem suffix_last {u z w : Str} (hz : z ≠ [])
    (h : u ++ z = '[' :: w ++ [']']) : ']' ∈ z := by
  have hr : z.reverse ++ u.reverse = ']' :: (w.reverse ++ ['[']) := by
    have h2 := congrArg List.reverse h
    simpa [List.reverse_append] using h2
  cases hzr : z.reverse with
  | nil =>
    exact absurd (by simpa using congrArg List.reverse hzr) hz
  | cons y ys =>
    rw [hzr] at hr
    have h1 : y = ']' := by
      have := List.head_eq_of_cons_eq hr
      simpa using this
    have hy : y ∈ z.reverse := by rw [hzr]; simp
    rw [h1] at hy
    exact List.mem_reverse.mp hy

/-- A bracket-free pattern that does not occur inside a placeholder block
finds no match starting anywhere in the block, so the block is copied
verbatim by the replace-all scan. -/
theorem block_pass (pat rep : Str) (w t : Str) (hpat : noBr pat = true)
    (hne : pat ≠ []) (hni : inStr pat ('[' :: w ++ [']']) = false) :
    replaceAllGo pat rep (('[' :: w ++ [']']) ++ t) 0 =
      ('[' :: w ++ [']']) ++ replaceAllGo pat rep t 0 := by
  apply scan_through
  intro z hzne hu
  obtain ⟨u, hu⟩ := hu
  by_contra hcon
  have hlz : leads pat (z ++ t) = true := by
    cases hx : leads pat (z ++ t)
    · exact absurd hx hcon
    · rfl
  rcases leads_split hlz with hz | ⟨p2, hp2, hp2ne, hlp2⟩
  · obtain ⟨t', rfl⟩ := leads_iff.mp hz
    have hocc : inStr pat ('[' :: w ++ [']']) = true :=
      inStr_iff.mpr ⟨u, t', by rw [← hu, List.append_assoc]⟩
    rw [hocc] at hni
    exact absurd hni (by simp)
  · have hmem : ']' ∈ z := suffix_last hzne hu
    have : ']' ∈ pat := by rw [hp2]; exact List.mem_append_left _ hmem
    exact noBr_rb hpat this

/-- Two distinct well-formed placeholder blocks: neither occurs inside the
other. -/
theorem ph_not_in_other {w w' : Str} (hw : noBr w = true)
    (hneq : ('[' :: w' ++ [']']) ≠ ('[' :: w ++ [']'])) :
    inStr ('[' :: w' ++ [']']) ('[' :: w ++ [']']) = false := by
  cases hcon : inStr ('[' :: w' ++ [']']) ('[' :: w ++ [']']) with
  | false => rfl
  | true =>
    exfalso
    obtain ⟨u, r, hur⟩ := inStr_iff.mp hcon
    cases u with
    | cons x xs =>
      have h2 : w ++ [']'] = xs ++ ('[' :: w' ++ [']']) ++ r := by
        have := List.tail_eq_of_cons_eq (by simpa using hur)
        simpa using this
      have hlb : '[' ∈ w ++ [']'] := by
        rw [h2]; simp
      rcases List.mem_append.mp hlb with h3 | h3
      · exact noBr_lb hw h3
      · simp at h3
    | nil =>
      have htail : w ++ [']'] = (w' ++ [']']) ++ r := by
        have h2 : w ++ [']'] = w' ++ ']' :: r := by simpa using hur
        rw [h2]
        simp
      rcases List.append_eq_append_iff.mp htail with ⟨a', ha1, ha2⟩ | ⟨c', hc1, _⟩
      · cases a' with
        | nil =>
          have hww : w = w' ++ [']'] := by simpa using ha1.symm
          exact noBr_rb hw (by rw [hww]; simp)
        | cons b bs =>
          have ha2' : (']' : Char) :: ([] : Str) = b :: (bs ++ r) := by
            simpa using ha2
          have hb : b = ']' := (List.head_eq_of_cons_eq ha2').symm
          have hbr : bs ++ r = [] := (List.tail_eq_of_cons_eq ha2').symm
          have hbs : bs = [] := (List.append_eq_nil.mp hbr).1
          have hww : w' ++ [']'] = w ++ [']'] := by
            rw [ha1, hb, hbs]
          have hww' : w' = w := by
            have h3 := congrArg List.dropLast hww
            simpa using h3
          exact hneq (by rw [hww'])
      · exact noBr_rb hw (by rw [hc1]; simp)

/-- A placeholder block is matched by the scan for itself: the block is
replaced and the scan resumes after it. -/
theorem block_same (p rep t : Str) (hne : p ≠ []) :
    replaceAllGo p rep (p ++ t) 0 = rep ++ replaceAllGo p rep t 0 := by
  rw [rAG_match p rep hne leads_append_self, List.drop_left]

/-! ## Ghost decomposition of a progressively masked text -/

/-- One block of the ghost decomposition: an inserted placeholder `ph`
(recorded together with the original value `orig` it replaced) followed by
the literal chunk up to the next block. -/
structure Blk where
  ph : Str
  orig : Str
  chunk : Str

/-- A ghost decomposition: the leading literal chunk plus the blocks. -/
abbrev MSt := Str × List Blk

def renderB (bs : List Blk) : Str :=
  bs.foldr (fun b acc => b.ph ++ b.chunk ++ acc) []

/-- The masked text a decomposition denotes. -/
def renderSt (st : MSt) : Str := st.1 ++ renderB st.2

def unrenderB (bs : List Blk) : Str :=
  bs.foldr (fun b acc => b.orig ++ b.chunk ++ acc) []

/-- The text a decomposition denotes with every placeholder undone. -/
def unrenderSt (st : MSt) : Str := st.1 ++ unrenderB st.2

/-- Well-formedness: every literal chunk is bracket-free. -/
def WfSt (st : MSt) : Prop :=
  noBr st.1 = true ∧ ∀ b ∈ st.2, noBr b.chunk = true

theorem renderB_append (xs ys : List Blk) :
    renderB (xs ++ ys) = renderB xs ++ renderB ys := by
  induction xs with
  | nil => rfl
  | cons b rest ih =>
    simp only [List.cons_append, renderB, List.foldr_cons] at ih ⊢
    rw [ih]
    simp

theorem unrenderB_append (xs ys : List Blk) :
    unrenderB (xs ++ ys) = unrenderB xs ++ unrenderB ys := by
  induction xs with
  | nil => rfl
  | cons b rest ih =>
    simp only [List.cons_append, unrenderB, List.foldr_cons] at ih ⊢
    rw [ih]
    simp

/-- One mask step on a single chunk: the retained head plus a new block for
each replaced occurrence of `pat`. -/
def stepChunk (pat rep : Str) (c : Str) : Str × List Blk :=
  ((spl pat c).1, (spl pat c).2.map fun e => ⟨rep, pat, e⟩)

def stepBlocks (pat rep : Str) : List Blk → List Blk
  | [] => []
  | b :: rest =>
      ⟨b.ph, b.orig, (stepChunk pat rep b.chunk).1⟩ ::
        (stepChunk pat rep b.chunk).2 ++ stepBlocks pat rep rest

/-- One mask step (`masked_text = masked_text.replace(value, placeholder)`)
on the ghost decomposition. -/
def stepSt (pat rep : Str) (st : MSt) : MSt :=
  ((stepChunk pat rep st.1).1,
   (stepChunk pat rep st.1).2 ++ stepBlocks pat rep st.2)

theorem renderB_map_blocks (rep pat : Str) (l : List Str) :
    renderB (l.map fun e => ⟨rep, pat, e⟩) =
      l.foldr (fun e acc => rep ++ e ++ acc) [] := by
  induction l with
  | nil => rfl
  | cons e l ih => simp [renderB, List.foldr_cons] at ih ⊢; rw [ih]

theorem unrenderB_map_blocks (rep pat : Str) (l : List Str) :
    unrenderB (l.map fun e => ⟨rep, pat, e⟩) =
      l.foldr (fun e acc => pat ++ e ++ acc) [] := by
  induction l with
  | nil => rfl
  | cons e l ih => simp [unrenderB, List.foldr_cons] at ih ⊢; rw [ih]

theorem foldr_join_base (rep : Str) (l : List Str) (base : Str) :
    l.foldr (fun e acc => rep ++ e ++ acc) base =
      l.foldr (fun e acc => rep ++ e ++ acc) [] ++ base := by
  induction l with
  | nil => rfl
  | cons e l ih =>
    simp only [List.foldr_cons]
    rw [ih]
    simp

/-- The rendering of a block list is empty or starts with `'['`. -/
theorem renderB_head (bs : List Blk)
    (hphs : ∀ b ∈ bs, ∃ w, b.ph = ('[' :: w) ++ [']'] ∧ noBr w = true) :
    renderB bs = [] ∨ ∃ t', renderB bs = '[' :: t' := by
  cases bs with
  | nil => exact Or.inl rfl
  | cons b rest =>
    obtain ⟨w, hw, _⟩ := hphs b (by simp)
    right
    refine ⟨(w ++ [']']) ++ b.chunk ++ renderB rest, ?_⟩
    show b.ph ++ b.chunk ++ renderB rest = _
    rw [hw]
    simp

theorem renderB_nil : renderB [] = [] := rfl

theorem renderB_cons (b : Blk) (rest : List Blk) :
    renderB (b :: rest) = b.ph ++ b.chunk ++ renderB rest := rfl

theorem unrenderB_nil : unrenderB [] = [] := rfl

theorem unrenderB_cons (b : Blk) (rest : List Blk) :
    unrenderB (b :: rest) = b.orig ++ b.chunk ++ unrenderB rest := rfl

theorem stepBlocks_cons (pat rep : Str) (b : Blk) (rest : List Blk) :
    stepBlocks pat rep (b :: rest) =
      ⟨b.ph, b.orig, (stepChunk pat rep b.chunk).1⟩ ::
        ((stepChunk pat rep b.chunk).2 ++ stepBlocks pat rep rest) := rfl

theorem stepChunk_fst (pat rep c : Str) :
    (stepChunk pat rep c).1 = (spl pat c).1 := rfl

theorem stepChunk_snd (pat rep c : Str) :
    (stepChunk pat rep c).2 = (spl pat c).2.map fun e => ⟨rep, pat, e⟩ := rfl

/-- Mask-phase scan over a block list: a bracket-free pattern occurring in
no placeholder acts on the chunks only. -/
theorem go_renderB (pat rep : Str) (hpat : noBr pat = true) (hne : pat ≠ []) :
    ∀ bs : List Blk,
      (∀ b ∈ bs, ∃ w, b.ph = ('[' :: w) ++ [']'] ∧ noBr w = true) →
      (∀ b ∈ bs, inStr pat b.ph = false) →
      replaceAllGo pat rep (renderB bs) 0 = renderB (stepBlocks pat rep bs) := by
  intro bs
  induction bs with
  | nil => intro _ _; rfl
  | cons b rest ih =>
    intro hphs hni
    obtain ⟨w, hw, hwnb⟩ := hphs b (by simp)
    have hnib : inStr pat (('[' :: w) ++ [']']) = false := by
      have := hni b (by simp)
      rwa [hw] at this
    have hrest : ∀ b' ∈ rest, ∃ w', b'.ph = ('[' :: w') ++ [']'] ∧ noBr w' = true :=
      fun b' hb' => hphs b' (by simp [hb'])
    have hnir : ∀ b' ∈ rest, inStr pat b'.ph = false :=
      fun b' hb' => hni b' (by simp [hb'])
    rw [renderB_cons, hw]
    rw [show ('[' :: w) ++ [']'] ++ b.chunk ++ renderB rest =
      (('[' :: w) ++ [']']) ++ (b.chunk ++ renderB rest) by simp]
    rw [block_pass pat rep w (b.chunk ++ renderB rest) hpat hne hnib,
      chunk_scan pat rep hpat b.chunk (renderB rest) (renderB_head rest hrest),
      ih hrest hnir, foldr_join_base, stepBlocks_cons, renderB_cons]
    dsimp only
    rw [stepChunk_fst, stepChunk_snd, renderB_append, renderB_map_blocks, hw]
    simp [List.append_assoc]

theorem stepBlocks_mem (pat rep : Str) :
    ∀ (bs : List Blk) (b' : Blk), b' ∈ stepBlocks pat rep bs →
      (∃ b ∈ bs, b'.ph = b.ph ∧ b'.orig = b.orig ∧ b'.chunk = (spl pat b.chunk).1) ∨
      (b'.ph = rep ∧ b'.orig = pat ∧ ∃ b ∈ bs, b'.chunk ∈ (spl pat b.chunk).2) := by
  intro bs
  induction bs with
  | nil => intro b' h; simp [stepBlocks] at h
  | cons b rest ih =>
    intro b' h
    rw [stepBlocks_cons] at h
    rcases List.mem_cons.mp h with rfl | h2
    · exact Or.inl ⟨b, by simp, rfl, rfl, rfl⟩
    · rcases List.mem_append.mp h2 with h3 | h3
      · rw [stepChunk_snd] at h3
        obtain ⟨e, he, rfl⟩ := List.mem_map.mp h3
        exact Or.inr ⟨rfl, rfl, b, by simp, he⟩
      · rcases ih b' h3 with ⟨b0, hb0, h4⟩ | ⟨h4, h5, b0, hb0, h6⟩
        · exact Or.inl ⟨b0, by simp [hb0], h4⟩
        · exact Or.inr ⟨h4, h5, b0, by simp [hb0], h6⟩

theorem stepBlocks_unrender (pat rep : Str) :
    ∀ bs : List Blk, unrenderB (stepBlocks pat rep bs) = unrenderB bs := by
  intro bs
  induction bs with
  | nil => rfl
  | cons b rest ih =>
    rw [stepBlocks_cons, unrenderB_cons]
    dsimp only
    rw [stepChunk_fst, stepChunk_snd, unrenderB_append, unrenderB_map_blocks, ih,
      unrenderB_cons]
    simp only [← List.append_assoc]
    rw [List.append_assoc b.orig, spl_join]

/-- One mask step commutes with rendering. -/
theorem mask_step_render (pat rep : Str) (hpat : noBr pat = true)
    (hne : pat ≠ []) (st : MSt)
    (hphs : ∀ b ∈ st.2, ∃ w, b.ph = ('[' :: w) ++ [']'] ∧ noBr w = true)
    (hni : ∀ b ∈ st.2, inStr pat b.ph = false) :
    replaceAll pat rep (renderSt st) = renderSt (stepSt pat rep st) := by
  show replaceAllGo pat rep (st.1 ++ renderB st.2) 0 = _
  rw [chunk_scan pat rep hpat st.1 (renderB st.2) (renderB_head st.2 hphs),
    go_renderB pat rep hpat hne st.2 hphs hni]
  show _ = (stepChunk pat rep st.1).1 ++
    renderB ((stepChunk pat rep st.1).2 ++ stepBlocks pat rep st.2)
  rw [stepChunk_fst, stepChunk_snd, renderB_append, renderB_map_blocks,
    foldr_join_base]

theorem stepSt_wf (pat rep : Str) (st : MSt) (hwf : WfSt st) :
    WfSt (stepSt pat rep st) := by
  obtain ⟨h1, h2⟩ := hwf
  constructor
  · exact (spl_noBr pat h1).1
  · intro b' hb'
    rcases List.mem_append.mp hb' with h3 | h3
    · rw [stepChunk_snd] at h3
      obtain ⟨e, he, rfl⟩ := List.mem_map.mp h3
      exact (spl_noBr pat h1).2 e he
    · rcases stepBlocks_mem pat rep st.2 b' h3 with ⟨b0, hb0, _, _, hc⟩ |
        ⟨_, _, b0, hb0, hc⟩
      · rw [hc]; exact (spl_noBr pat (h2 b0 hb0)).1
      · exact (spl_noBr pat (h2 b0 hb0)).2 _ hc

theorem step_unrender (pat rep : Str) (st : MSt) :
    unrenderSt (stepSt pat rep st) = unrenderSt st := by
  show (stepChunk pat rep st.1).1 ++
    unrenderB ((stepChunk pat rep st.1).2 ++ stepBlocks pat rep st.2) =
    st.1 ++ unrenderB st.2
  rw [stepChunk_fst, stepChunk_snd, unrenderB_append, unrenderB_map_blocks,
    stepBlocks_unrender]
  simp only [← List.append_assoc]
  rw [spl_join]

/-! ## Unmask-phase scanning lemmas -/

/-- A bracket-free chunk is copied verbatim by a scan for a pattern that
starts with `'['`. -/
theorem chunk_pass_br (p v : Str) {wp : Str} (hp : p = ('[' :: wp) ++ [']'])
    (c t : Str) (hc : noBr c = true) :
    replaceAllGo p v (c ++ t) 0 = c ++ replaceAllGo p v t 0 := by
  apply scan_through
  intro z hzne hu
  obtain ⟨u, hu⟩ := hu
  cases z with
  | nil => exact absurd rfl hzne
  | cons zh zt =>
    have hmem : zh ∈ c := by rw [← hu]; simp
    have hzh : ¬ zh = '[' := fun h => noBr_lb hc (h ▸ hmem)
    cases hl : leads p ((zh :: zt) ++ t) with
    | false => rfl
    | true =>
      exfalso
      rw [hp] at hl
      have hl' : leads ('[' :: (wp ++ [']'])) (zh :: (zt ++ t)) = true := by
        simpa using hl
      simp only [leads, Bool.and_eq_true, beq_iff_eq] at hl'
      exact hzh hl'.1.symm

/-- A well-formed placeholder block distinct from `p` is copied verbatim by
the scan for `p`. -/
theorem block_pass_ph (p v : Str) {wp w : Str} (hp : p = ('[' :: wp) ++ [']'])
    (hwp : noBr wp = true) (hw : noBr w = true)
    (hne : p ≠ ('[' :: w) ++ [']']) (t : Str) :
    replaceAllGo p v ((('[' :: w) ++ [']']) ++ t) 0 =
      (('[' :: w) ++ [']']) ++ replaceAllGo p v t 0 := by
  apply scan_through
  intro z hzne hu
  obtain ⟨u, hu⟩ := hu
  cases hl : leads p (z ++ t) with
  | false => rfl
  | true =>
    exfalso
    cases u with
    | nil =>
      simp only [List.nil_append] at hu
      subst hu
      rcases leads_split hl with hlz | ⟨p2, hp2, hp2ne, hlp2⟩
      · have hocc : inStr p (('[' :: w) ++ [']']) = true := inStr_of_leads hlz
        have hfalse := @ph_not_in_other w wp hw
          (by rw [← hp]; exact hne)
        rw [← hp] at hfalse
        rw [hocc] at hfalse
        exact absurd hfalse (by simp)
      · rw [hp] at hp2
        have heq : wp ++ [']'] = w ++ (']' :: p2) := by
          have h2 : ('[' :: wp) ++ [']'] ++ p2 = ('[' :: w) ++ [']'] ++ p2 → True :=
            fun _ => trivial
        -- ('[' :: wp) ++ [']'] = (('[' :: w) ++ [']']) ++ p2
          have h3 := hp2
          simp only [List.cons_append, List.append_assoc] at h3
          have := List.tail_eq_of_cons_eq h3
          simpa using this
        rcases List.append_eq_append_iff.mp heq with ⟨a', _, ha2⟩ | ⟨c', hc1, hc2⟩
        · have := congrArg List.length ha2
          simp at this
          exact hp2ne (by
            have : p2.length = 0 := by omega
            exact List.eq_nil_of_length_eq_zero this)
        · cases c' with
          | nil =>
            have : p2 = [] := by simpa using hc2
            exact hp2ne this
          | cons x xs =>
            have hx : ']' = x := by
              have := hc2
              simp only [List.cons_append] at this
              exact List.head_eq_of_cons_eq this
            have : ']' ∈ wp := by
              rw [hc1, ← hx]
              simp
            exact noBr_rb hwp this
    | cons x xs =>
      have hu' : x :: (xs ++ z) = '[' :: (w ++ [']']) := by
        simpa using hu
      have hxz : xs ++ z = w ++ [']'] := List.tail_eq_of_cons_eq hu'
      cases z with
      | nil => exact hzne rfl
      | cons zh zt =>
        have hsub : zh ∈ w ++ [']'] := by
          rw [← hxz]
          simp
        have hzh : zh ≠ '[' := by
          intro h
          rcases List.mem_append.mp hsub with h2 | h2
          · exact noBr_lb hw (h ▸ h2)
          · rw [h] at h2
            simp at h2
        rw [hp] at hl
        have hl' : leads ('[' :: (wp ++ [']'])) (zh :: (zt ++ t)) = true := by
          simpa using hl
        simp only [leads, Bool.and_eq_true, beq_iff_eq] at hl'
        exact hzh hl'.1.symm

/-- Unmask step on the block list: every block carrying placeholder `p`
dissolves into literal text `v ++ chunk`, merged into the preceding chunk. -/
def dissolveB (p v : Str) : List Blk → Str × List Blk
  | [] => ([], [])
  | b :: rest =>
      if b.ph = p then
        (v ++ b.chunk ++ (dissolveB p v rest).1, (dissolveB p v rest).2)
      else
        ([], ⟨b.ph, b.orig, b.chunk ++ (dissolveB p v rest).1⟩ ::
          (dissolveB p v rest).2)

/-- Unmask step (`text = text.replace(placeholder, original)`) on the ghost
decomposition. -/
def dissolveSt (p v : Str) (st : MSt) : MSt :=
  (st.1 ++ (dissolveB p v st.2).1, (dissolveB p v st.2).2)

theorem go_dissolveB (p v : Str) {wp : Str} (hp : p = ('[' :: wp) ++ [']'])
    (hwp : noBr wp = true) :
    ∀ bs : List Blk,
      (∀ b ∈ bs, ∃ w, b.ph = ('[' :: w) ++ [']'] ∧ noBr w = true) →
      (∀ b ∈ bs, noBr b.chunk = true) →
      replaceAllGo p v (renderB bs) 0 =
        (dissolveB p v bs).1 ++ renderB (dissolveB p v bs).2 := by
  intro bs
  induction bs with
  | nil => intro _ _; rfl
  | cons b rest ih =>
    intro hphs hchunks
    obtain ⟨w, hw, hwnb⟩ := hphs b (by simp)
    have hrest1 : ∀ b' ∈ rest, ∃ w', b'.ph = ('[' :: w') ++ [']'] ∧ noBr w' = true :=
      fun b' hb' => hphs b' (by simp [hb'])
    have hrest2 : ∀ b' ∈ rest, noBr b'.chunk = true :=
      fun b' hb' => hchunks b' (by simp [hb'])
    have hpne : p ≠ [] := by rw [hp]; simp
    by_cases hbp : b.ph = p
    · rw [renderB_cons, hbp]
      rw [show p ++ b.chunk ++ renderB rest = p ++ (b.chunk ++ renderB rest) by simp]
      rw [block_same p v _ hpne,
        chunk_pass_br p v hp b.chunk (renderB rest) (hchunks b (by simp)),
        ih hrest1 hrest2]
      show _ = (dissolveB p v (b :: rest)).1 ++ renderB (dissolveB p v (b :: rest)).2
      rw [show dissolveB p v (b :: rest) =
        (v ++ b.chunk ++ (dissolveB p v rest).1, (dissolveB p v rest).2) by
          simp [dissolveB, hbp]]
      simp [List.append_assoc]
    · rw [renderB_cons, hw]
      rw [show (('[' :: w) ++ [']']) ++ b.chunk ++ renderB rest =
        (('[' :: w) ++ [']']) ++ (b.chunk ++ renderB rest) by simp]
      rw [block_pass_ph p v hp hwp hwnb (by rw [← hw]; exact fun h => hbp h.symm) _,
        chunk_pass_br p v hp b.chunk (renderB rest) (hchunks b (by simp)),
        ih hrest1 hrest2]
      rw [show dissolveB p v (b :: rest) =
        ([], ⟨b.ph, b.orig, b.chunk ++ (dissolveB p v rest).1⟩ ::
          (dissolveB p v rest).2) by simp [dissolveB, hbp]]
      rw [List.nil_append, renderB_cons]
      dsimp only
      rw [hw]
      simp [List.append_assoc]

theorem dissolveB_mem (p v : Str) :
    ∀ (bs : List Blk) (b' : Blk), b' ∈ (dissolveB p v bs).2 →
      ∃ b ∈ bs, b'.ph = b.ph ∧ b'.orig = b.orig ∧ b.ph ≠ p := by
  intro bs
  induction bs with
  | nil => intro b' h; simp [dissolveB] at h
  | cons b rest ih =>
    intro b' h
    by_cases hbp : b.ph = p
    · rw [show dissolveB p v (b :: rest) =
        (v ++ b.chunk ++ (dissolveB p v rest).1, (dissolveB p v rest).2) by
          simp [dissolveB, hbp]] at h
      obtain ⟨b0, hb0, h4⟩ := ih b' h
      exact ⟨b0, by simp [hb0], h4⟩
    · rw [show dissolveB p v (b :: rest) =
        ([], ⟨b.ph, b.orig, b.chunk ++ (dissolveB p v rest).1⟩ ::
          (dissolveB p v rest).2) by simp [dissolveB, hbp]] at h
      rcases List.mem_cons.mp h with rfl | h2
      · exact ⟨b, by simp, rfl, rfl, hbp⟩
      · obtain ⟨b0, hb0, h4⟩ := ih b' h2
        exact ⟨b0, by simp [hb0], h4⟩

theorem dissolveB_noBr (p v : Str) (hv : noBr v = true) :
    ∀ bs : List Blk, (∀ b ∈ bs, noBr b.chunk = true) →
      noBr (dissolveB p v bs).1 = true ∧
      ∀ b' ∈ (dissolveB p v bs).2, noBr b'.chunk = true := by
  intro bs
  induction bs with
  | nil => intro _; exact ⟨rfl, by simp [dissolveB]⟩
  | cons b rest ih =>
    intro hchunks
    obtain ⟨ih1, ih2⟩ := ih fun b' hb' => hchunks b' (by simp [hb'])
    by_cases hbp : b.ph = p
    · rw [show dissolveB p v (b :: rest) =
        (v ++ b.chunk ++ (dissolveB p v rest).1, (dissolveB p v rest).2) by
          simp [dissolveB, hbp]]
      refine ⟨?_, ih2⟩
      rw [List.append_assoc, noBr_append, noBr_append]
      simp [hv, hchunks b (by simp), ih1]
    · rw [show dissolveB p v (b :: rest) =
        ([], ⟨b.ph, b.orig, b.chunk ++ (dissolveB p v rest).1⟩ ::
          (dissolveB p v rest).2) by simp [dissolveB, hbp]]
      refine ⟨rfl, ?_⟩
      intro b' hb'
      rcases List.mem_cons.mp hb' with rfl | h2
      · show noBr (b.chunk ++ (dissolveB p v rest).1) = true
        rw [noBr_append]
        simp [hchunks b (by simp), ih1]
      · exact ih2 b' h2

theorem dissolveB_unrender (p v : Str) :
    ∀ bs : List Blk, (∀ b ∈ bs, b.ph = p → b.orig = v) →
      (dissolveB p v bs).1 ++ unrenderB (dissolveB p v bs).2 = unrenderB bs := by
  intro bs
  induction bs with
  | nil => intro _; rfl
  | cons b rest ih =>
    intro horig
    have ih' := ih fun b' hb' => horig b' (by simp [hb'])
    by_cases hbp : b.ph = p
    · rw [show dissolveB p v (b :: rest) =
        (v ++ b.chunk ++ (dissolveB p v rest).1, (dissolveB p v rest).2) by
          simp [dissolveB, hbp]]
      rw [unrenderB_cons, horig b (by simp) hbp]
      show (v ++ b.chunk ++ (dissolveB p v rest).1) ++
        unrenderB (dissolveB p v rest).2 = _
      simp only [List.append_assoc]
      rw [ih']
    · rw [show dissolveB p v (b :: rest) =
        ([], ⟨b.ph, b.orig, b.chunk ++ (dissolveB p v rest).1⟩ ::
          (dissolveB p v rest).2) by simp [dissolveB, hbp]]
      rw [List.nil_append, unrenderB_cons, unrenderB_cons]
      dsimp only
      simp only [List.append_assoc]
      rw [ih']

/-- One unmask step commutes with rendering. -/
theorem dissolve_render (p v : Str) {wp : Str} (hp : p = ('[' :: wp) ++ [']'])
    (hwp : noBr wp = true) (st : MSt) (hwf : WfSt st)
    (hphs : ∀ b ∈ st.2, ∃ w, b.ph = ('[' :: w) ++ [']'] ∧ noBr w = true) :
    replaceAll p v (renderSt st) = renderSt (dissolveSt p v st) := by
  show replaceAllGo p v (st.1 ++ renderB st.2) 0 = _
  rw [chunk_pass_br p v hp st.1 (renderB st.2) hwf.1,
    go_dissolveB p v hp hwp st.2 hphs hwf.2]
  show _ = (st.1 ++ (dissolveB p v st.2).1) ++ renderB (dissolveB p v st.2).2
  simp [List.append_assoc]

/-- Folding the session's replacements over the rendering of a well-formed
decomposition whose blocks all come from the mapping recovers the text the
decomposition denotes with every placeholder undone. -/
theorem unmask_fold (E : List (Str × Str)) :
    ∀ st : MSt, WfSt st →
      (∀ pv ∈ E, ∃ w, pv.1 = ('[' :: w) ++ [']'] ∧ noBr w = true) →
      (∀ pv ∈ E, noBr pv.2 = true) →
      (E.map Prod.fst).Nodup →
      (∀ b ∈ st.2, (b.ph, b.orig) ∈ E) →
      E.foldl (fun acc pv => replaceAll pv.1 pv.2 acc) (renderSt st) =
        unrenderSt st := by
  induction E with
  | nil =>
    intro st _ _ _ _ hblk
    have hnil : st.2 = [] := by
      cases hb : st.2 with
      | nil => rfl
      | cons b rest => exact absurd (hblk b (by rw [hb]; simp)) (by simp)
    show renderSt st = unrenderSt st
    rw [renderSt, unrenderSt, hnil]
    rfl
  | cons pv E' ih =>
    intro st hwf hshapes hvals hnd hblk
    obtain ⟨w, hw, hwnb⟩ := hshapes pv (by simp)
    have hv : noBr pv.2 = true := hvals pv (by simp)
    have hphs : ∀ b ∈ st.2, ∃ w', b.ph = ('[' :: w') ++ [']'] ∧ noBr w' = true :=
      fun b hb => hshapes (b.ph, b.orig) (hblk b hb)
    have hnd' : pv.1 ∉ E'.map Prod.fst ∧ (E'.map Prod.fst).Nodup := by
      rw [List.map_cons] at hnd
      exact List.nodup_cons.mp hnd
    show List.foldl _ (replaceAll pv.1 pv.2 (renderSt st)) E' = _
    rw [dissolve_render pv.1 pv.2 hw hwnb st hwf hphs]
    have hwf' : WfSt (dissolveSt pv.1 pv.2 st) := by
      constructor
      · show noBr (st.1 ++ (dissolveB pv.1 pv.2 st.2).1) = true
        rw [noBr_append]
        simp [hwf.1, (dissolveB_noBr pv.1 pv.2 hv st.2 hwf.2).1]
      · exact fun b' hb' => (dissolveB_noBr pv.1 pv.2 hv st.2 hwf.2).2 b' hb'
    have hblk' : ∀ b' ∈ (dissolveSt pv.1 pv.2 st).2, (b'.ph, b'.orig) ∈ E' := by
      intro b' hb'
      obtain ⟨b0, hb0, hph, horig, hbne⟩ := dissolveB_mem pv.1 pv.2 st.2 b' hb'
      have hin : (b'.ph, b'.orig) ∈ pv :: E' := by
        rw [hph, horig]
        exact hblk b0 hb0
      rcases List.mem_cons.mp hin with heq | hin'
      · exact absurd (by rw [← hph]; exact congrArg Prod.fst heq) hbne
      · exact hin'
    rw [ih (dissolveSt pv.1 pv.2 st) hwf'
      (fun qw hqw => hshapes qw (by simp [hqw]))
      (fun qw hqw => hvals qw (by simp [hqw])) hnd'.2 hblk']
    have horig : ∀ b ∈ st.2, b.ph = pv.1 → b.orig = pv.2 := by
      intro b hb hbp
      have hin := hblk b hb
      rw [hbp] at hin
      rcases List.mem_cons.mp hin with heq | hin'
      · exact congrArg Prod.snd heq
      · exact absurd (List.mem_map.mpr ⟨(pv.1, b.orig), hin', rfl⟩) hnd'.1
    show (st.1 ++ (dissolveB pv.1 pv.2 st.2).1) ++
      unrenderB (dissolveB pv.1 pv.2 st.2).2 = st.1 ++ unrenderB st.2
    rw [List.append_assoc, dissolveB_unrender pv.1 pv.2 st.2 horig]

/-- A replace-all for a pattern with no occurrence is the identity. -/
theorem replaceAll_no_occ (pat rep : Str) :
    ∀ s : Str, inStr pat s = false → replaceAll pat rep s = s := by
  intro s
  induction s with
  | nil => intro _; rfl
  | cons c cs ih =>
    intro h
    have h2 : leads pat (c :: cs) = false ∧ inStr pat cs = false := by
      have := h
      simp only [inStr, Bool.or_eq_false_iff] at this
      exact this
    show replaceAllGo pat rep (c :: cs) 0 = c :: cs
    rw [rAG_nomatch pat rep (Or.inr h2.1)]
    have := ih h2.2
    rw [show replaceAllGo pat rep cs 0 = replaceAll pat rep cs from rfl, this]

/-! ## The recorded pairs of a mask pass -/

theorem mkPlaceholder_eq (ty id8 : Str) :
    mkPlaceholder ty id8 = ('[' :: (pyUpper ty ++ '_' :: id8)) ++ [']'] := rfl

/-- The `(placeholder, original value)` pairs the mask loop records, in
order.  An item is accepted exactly when its stripped value is nonempty and
a literal substring of the original `text` — the acceptance test reads the
original text, not the progressively masked one. -/
def mintedPairs (text : Str) (ids : Nat → Str) :
    List RawItem → Nat → List (Str × Str)
  | [], _ => []
  | it :: rest, k =>
      let v := pyStrip it.value
      if !v.isEmpty && inStr v text then
        (mkPlaceholder (pyLower it.type) (ids k), v) ::
          mintedPairs text ids rest (k + 1)
      else
        mintedPairs text ids rest k

theorem mintedPairs_cons_acc (text : Str) (ids : Nat → Str) (it : RawItem)
    (rest : List RawItem) (k : Nat)
    (hacc : (!(pyStrip it.value).isEmpty && inStr (pyStrip it.value) text) = true) :
    mintedPairs text ids (it :: rest) k =
      (mkPlaceholder (pyLower it.type) (ids k), pyStrip it.value) ::
        mintedPairs text ids rest (k + 1) := by
  simp [mintedPairs, hacc]

theorem mintedPairs_cons_rej (text : Str) (ids : Nat → Str) (it : RawItem)
    (rest : List RawItem) (k : Nat)
    (hacc : ¬ (!(pyStrip it.value).isEmpty && inStr (pyStrip it.value) text) = true) :
    mintedPairs text ids (it :: rest) k = mintedPairs text ids rest k := by
  simp [mintedPairs]
  intro h1 h2
  exact absurd (by simp [h1, h2]) hacc

theorem mintedPairs_val (text : Str) (ids : Nat → Str) :
    ∀ (items : List RawItem) (k : Nat) (pv : Str × Str),
      pv ∈ mintedPairs text ids items k →
      pv.2 ≠ [] ∧ inStr pv.2 text = true := by
  intro items
  induction items with
  | nil => intro k pv h; simp [mintedPairs] at h
  | cons it rest ih =>
    intro k pv h
    by_cases hacc : (!(pyStrip it.value).isEmpty && inStr (pyStrip it.value) text) = true
    · rw [mintedPairs_cons_acc text ids it rest k hacc] at h
      rcases List.mem_cons.mp h with rfl | h2
      · constructor
        · intro hveq
          have hveq' : pyStrip it.value = [] := hveq
          rw [hveq'] at hacc
          simp at hacc
        · simp only [Bool.and_eq_true] at hacc
          exact hacc.2
      · exact ih (k + 1) pv h2
    · rw [mintedPairs_cons_rej text ids it rest k hacc] at h
      exact ih k pv h

theorem maskItems_cons_acc (text : Str) (sid : String) (ids : Nat → Str)
    (it : RawItem) (rest : List RawItem) (tbl : List (String × List (Str × Str)))
    (masked : Str) (pmap : List (Str × Str)) (k : Nat)
    (hacc : (!(pyStrip it.value).isEmpty && inStr (pyStrip it.value) text) = true) :
    maskItems text sid ids (it :: rest) (tbl, masked, pmap, k) =
      maskItems text sid ids rest
        (alSet tbl sid (alSet ((alGet tbl sid).getD [])
           (mkPlaceholder (pyLower it.type) (ids k)) (pyStrip it.value)),
         replaceAll (pyStrip it.value)
           (mkPlaceholder (pyLower it.type) (ids k)) masked,
         alSet pmap (pyStrip it.value) (mkPlaceholder (pyLower it.type) (ids k)),
         k + 1) := by
  simp [maskItems, hacc]

theorem maskItems_cons_rej (text : Str) (sid : String) (ids : Nat → Str)
    (it : RawItem) (rest : List RawItem) (tbl : List (String × List (Str × Str)))
    (masked : Str) (pmap : List (Str × Str)) (k : Nat)
    (hacc : ¬ (!(pyStrip it.value).isEmpty && inStr (pyStrip it.value) text) = true) :
    maskItems text sid ids (it :: rest) (tbl, masked, pmap, k) =
      maskItems text sid ids rest (tbl, masked, pmap, k) := by
  simp [maskItems]
  intro h1 h2
  exact absurd (by simp [h1, h2]) hacc

/-- Running the mask loop on the rendering of a well-formed decomposition
yields the rendering of a well-formed decomposition with the same underlying
text whose blocks all carry recorded pairs. -/
theorem mask_ghost (text : Str) (sid : String) (ids : Nat → Str)
    (E : List (Str × Str)) (htext : noBr text = true)
    (hshapes : ∀ pv ∈ E, ∃ w, pv.1 = ('[' :: w) ++ [']'] ∧ noBr w = true)
    (hvals : ∀ pv ∈ E, ∀ qw ∈ E, inStr pv.2 qw.1 = false) :
    ∀ (items : List RawItem) (k : Nat) (st : MSt)
      (tbl : List (String × List (Str × Str))) (pmap : List (Str × Str)),
      WfSt st →
      (∀ b ∈ st.2, (b.ph, b.orig) ∈ E) →
      (∀ pv ∈ mintedPairs text ids items k, pv ∈ E) →
      ∃ stF : MSt, WfSt stF ∧
        (maskItems text sid ids items (tbl, renderSt st, pmap, k)).2.1 =
          renderSt stF ∧
        unrenderSt stF = unrenderSt st ∧
        ∀ b ∈ stF.2, (b.ph, b.orig) ∈ E := by
  intro items
  induction items with
  | nil =>
    intro k st tbl pmap hwf hblk _
    exact ⟨st, hwf, rfl, rfl, hblk⟩
  | cons it rest ih =>
    intro k st tbl pmap hwf hblk hmint
    by_cases hacc : (!(pyStrip it.value).isEmpty && inStr (pyStrip it.value) text) = true
    · have hmem : (mkPlaceholder (pyLower it.type) (ids k), pyStrip it.value) ∈ E := by
        apply hmint
        rw [mintedPairs_cons_acc text ids it rest k hacc]
        simp
      have hvne : pyStrip it.value ≠ [] := by
        intro hveq
        rw [hveq] at hacc
        simp at hacc
      have hvin : inStr (pyStrip it.value) text = true := by
        simp only [Bool.and_eq_true] at hacc
        exact hacc.2
      have hvnb : noBr (pyStrip it.value) = true := noBr_of_inStr htext hvin
      have hni : ∀ b ∈ st.2, inStr (pyStrip it.value) b.ph = false :=
        fun b hb => hvals _ hmem _ (hblk b hb)
      have hphs : ∀ b ∈ st.2, ∃ w, b.ph = ('[' :: w) ++ [']'] ∧ noBr w = true :=
        fun b hb => hshapes _ (hblk b hb)
      have hblk2 : ∀ b' ∈ (stepSt (pyStrip it.value)
          (mkPlaceholder (pyLower it.type) (ids k)) st).2,
          (b'.ph, b'.orig) ∈ E := by
        intro b' hb'
        rcases List.mem_append.mp hb' with h5 | h5
        · rw [stepChunk_snd] at h5
          obtain ⟨e, _, rfl⟩ := List.mem_map.mp h5
          exact hmem
        · rcases stepBlocks_mem _ _ st.2 b' h5 with
            ⟨b0, hb0, hph, horig, _⟩ | ⟨hph, horig, _⟩
          · rw [hph, horig]; exact hblk b0 hb0
          · rw [hph, horig]; exact hmem
      have hmint2 : ∀ pv ∈ mintedPairs text ids rest (k + 1), pv ∈ E := by
        intro pv hpv
        apply hmint
        rw [mintedPairs_cons_acc text ids it rest k hacc]
        simp [hpv]
      rw [maskItems_cons_acc text sid ids it rest tbl (renderSt st) pmap k hacc,
        mask_step_render _ _ hvnb hvne st hphs hni]
      obtain ⟨stF, h1, h2, h3, h4⟩ := ih (k + 1)
        (stepSt (pyStrip it.value) (mkPlaceholder (pyLower it.type) (ids k)) st)
        _ _ (stepSt_wf _ _ st hwf) hblk2 hmint2
      exact ⟨stF, h1, h2, by rw [h3, step_unrender], h4⟩
    · rw [maskItems_cons_rej text sid ids it rest tbl (renderSt st) pmap k hacc]
      apply ih k st tbl pmap hwf hblk
      intro pv hpv
      apply hmint
      rw [mintedPairs_cons_rej text ids it rest k hacc]
      exact hpv

/-! ## Association-list lemmas -/

section AListLemmas

variable {κ : Type} {ν : Type} [DecidableEq κ]

theorem alGet_alSet_self (m : List (κ × ν)) (k : κ) (v : ν) :
    alGet (alSet m k v) k = some v := by
  induction m with
  | nil => simp [alGet, alSet]
  | cons kv rest ih =>
    obtain ⟨k', v'⟩ := kv
    by_cases h : k' = k
    · simp [alSet, alGet, h]
    · simp [alSet, alGet, h, ih]

theorem alGet_alSet_ne (m : List (κ × ν)) (k k' : κ) (v : ν) (h : k ≠ k') :
    alGet (alSet m k v) k' = alGet m k' := by
  induction m with
  | nil => simp [alGet, alSet, h]
  | cons kv rest ih =>
    obtain ⟨k0, v0⟩ := kv
    by_cases h2 : k0 = k
    · simp [alSet, alGet, h2, h, ih]
    · simp [alSet, alGet, h2, ih]

theorem alSet_fresh (m : List (κ × ν)) (k : κ) (v : ν)
    (h : ∀ x ∈ m, x.1 ≠ k) : alSet m k v = m ++ [(k, v)] := by
  induction m with
  | nil => rfl
  | cons kv rest ih =>
    have h1 : kv.1 ≠ k := h kv (by simp)
    obtain ⟨k0, v0⟩ := kv
    simp only [alSet, if_neg h1, List.cons_append]
    rw [ih fun x hx => h x (by simp [hx])]

theorem alGet_alDel_self (m : List (κ × ν)) (k : κ) :
    alGet (alDel m k) k = none := by
  induction m with
  | nil => rfl
  | cons kv rest ih =>
    obtain ⟨k0, v0⟩ := kv
    by_cases h : k0 = k
    · simpa [alDel, h] using ih
    · simpa [alDel, alGet, h] using ih

theorem alGet_mem (m : List (κ × ν)) (k : κ) {v : ν} (h : alGet m k = some v) :
    (k, v) ∈ m := by
  induction m with
  | nil => simp [alGet] at h
  | cons kv rest ih =>
    obtain ⟨k0, v0⟩ := kv
    by_cases h2 : k0 = k
    · simp only [alGet, if_pos h2] at h
      subst h2
      rw [← Option.some_inj.mp h]
      exact List.mem_cons_self _ _
    · simp only [alGet, if_neg h2] at h
      exact List.mem_cons_of_mem _ (ih h)

theorem alGet_isSome_of_mem (m : List (κ × ν)) (k : κ) {v : ν}
    (h : (k, v) ∈ m) : (alGet m k).isSome = true := by
  induction m with
  | nil => simp at h
  | cons kv rest ih =>
    obtain ⟨k0, v0⟩ := kv
    rcases List.mem_cons.mp h with heq | h2
    · have : k0 = k := (congrArg Prod.fst heq).symm
      simp [alGet, this]
    · by_cases h3 : k0 = k
      · simp [alGet, h3]
      · simp only [alGet, if_neg h3]
        exact ih h2

theorem alSet_keys (m : List (κ × ν)) (k : κ) (v : ν) (x : κ) :
    x ∈ (alSet m k v).map Prod.fst ↔ x ∈ m.map Prod.fst ∨ x = k := by
  induction m with
  | nil => simp [alSet]
  | cons kv rest ih =>
    obtain ⟨k0, v0⟩ := kv
    by_cases h : k0 = k
    · subst h
      have hset : alSet ((k0, v0) :: rest) k0 v = (k0, v) :: rest := by
        simp [alSet]
      rw [hset]
      simp only [List.map_cons, List.mem_cons]
      tauto
    · simp only [alSet, if_neg h, List.map_cons, List.mem_cons, ih]
      tauto

theorem alSet_keys_nodup (m : List (κ × ν)) (k : κ) (v : ν)
    (h : (m.map Prod.fst).Nodup) : ((alSet m k v).map Prod.fst).Nodup := by
  induction m with
  | nil => simp [alSet]
  | cons kv rest ih =>
    obtain ⟨k0, v0⟩ := kv
    simp only [List.map_cons, List.nodup_cons] at h
    by_cases h2 : k0 = k
    · simp only [alSet, if_pos h2, List.map_cons, List.nodup_cons]
      exact ⟨by rw [← h2]; exact h.1, h.2⟩
    · simp only [alSet, if_neg h2, List.map_cons, List.nodup_cons]
      refine ⟨?_, ih h.2⟩
      intro hmem
      rcases (alSet_keys rest k v k0).mp hmem with h3 | h3
      · exact h.1 h3
      · exact h2 h3

theorem alSet_length (m : List (κ × ν)) (k : κ) (v : ν) :
    (alSet m k v).length =
      if k ∈ m.map Prod.fst then m.length else m.length + 1 := by
  induction m with
  | nil => simp [alSet]
  | cons kv rest ih =>
    obtain ⟨k0, v0⟩ := kv
    by_cases h : k0 = k
    · simp [alSet, h]
    · simp only [alSet, if_neg h, List.length_cons, ih, List.map_cons,
        List.mem_cons]
      by_cases h2 : k ∈ rest.map Prod.fst
      · simp [h2]
      · have hk : ¬ k = k0 := fun hh => h hh.symm
        simp [h2, hk]

end AListLemmas

/-- The mappings table after a mask pass: the session's map is extended, in
order, by exactly the recorded pairs (fresh placeholder keys append). -/
theorem maskItems_table (text : Str) (sid : String) (ids : Nat → Str) :
    ∀ (items : List RawItem) (k : Nat)
      (tbl : List (String × List (Str × Str))) (masked : Str)
      (pmap : List (Str × Str)) (m0 : List (Str × Str)),
      alGet tbl sid = some m0 →
      ((m0 ++ mintedPairs text ids items k).map Prod.fst).Nodup →
      alGet (maskItems text sid ids items (tbl, masked, pmap, k)).1 sid =
        some (m0 ++ mintedPairs text ids items k) := by
  intro items
  induction items with
  | nil =>
    intro k tbl masked pmap m0 hget _
    simpa [maskItems, mintedPairs] using hget
  | cons it rest ih =>
    intro k tbl masked pmap m0 hget hnd
    by_cases hacc : (!(pyStrip it.value).isEmpty && inStr (pyStrip it.value) text) = true
    · rw [mintedPairs_cons_acc text ids it rest k hacc] at hnd ⊢
      rw [maskItems_cons_acc text sid ids it rest tbl masked pmap k hacc]
      have hfresh : ∀ x ∈ m0, x.1 ≠ mkPlaceholder (pyLower it.type) (ids k) := by
        intro x hx heq
        rw [List.map_append, List.nodup_append] at hnd
        have h1 : x.1 ∈ m0.map Prod.fst := List.mem_map.mpr ⟨x, hx, rfl⟩
        have h2 : x.1 ∈ ((mkPlaceholder (pyLower it.type) (ids k),
            pyStrip it.value) :: mintedPairs text ids rest (k + 1)).map
              Prod.fst := by
          rw [heq]
          simp
        exact hnd.2.2 h1 h2
      have hm0 : (alGet tbl sid).getD [] = m0 := by rw [hget]; rfl
      have hnd' : (((m0 ++ [(mkPlaceholder (pyLower it.type) (ids k),
          pyStrip it.value)]) ++ mintedPairs text ids rest (k + 1)).map
            Prod.fst).Nodup := by
        rw [← List.append_cons]
        exact hnd
      rw [hm0, alSet_fresh m0 _ _ hfresh,
        List.append_cons m0 (mkPlaceholder (pyLower it.type) (ids k),
          pyStrip it.value) (mintedPairs text ids rest (k + 1))]
      exact ih (k + 1) _ _ _ _ (alGet_alSet_self tbl sid _) hnd'
    · rw [mintedPairs_cons_rej text ids it rest k hacc] at hnd ⊢
      rw [maskItems_cons_rej text sid ids it rest tbl masked pmap k hacc]
      exact ih k tbl masked pmap m0 hget hnd

/-- The `placeholder_map` after a mask pass: its keys are the previously
present keys plus the recorded values, without duplicates. -/
theorem maskItems_pmap (text : Str) (sid : String) (ids : Nat → Str) :
    ∀ (items : List RawItem) (k : Nat)
      (tbl : List (String × List (Str × Str))) (masked : Str)
      (pmap : List (Str × Str)),
      (pmap.map Prod.fst).Nodup →
      (((maskItems text sid ids items (tbl, masked, pmap, k)).2.2.1.map
          Prod.fst).Nodup ∧
       ∀ x, x ∈ (maskItems text sid ids items (tbl, masked, pmap, k)).2.2.1.map
            Prod.fst ↔
         x ∈ pmap.map Prod.fst ∨
           x ∈ (mintedPairs text ids items k).map Prod.snd) := by
  intro items
  induction items with
  | nil =>
    intro k tbl masked pmap hnd
    refine ⟨by simpa [maskItems] using hnd, ?_⟩
    intro x
    simp [maskItems, mintedPairs]
  | cons it rest ih =>
    intro k tbl masked pmap hnd
    by_cases hacc : (!(pyStrip it.value).isEmpty && inStr (pyStrip it.value) text) = true
    · rw [maskItems_cons_acc text sid ids it rest tbl masked pmap k hacc,
        mintedPairs_cons_acc text ids it rest k hacc]
      obtain ⟨ih1, ih2⟩ := ih (k + 1) (alSet tbl sid (alSet ((alGet tbl sid).getD [])
        (mkPlaceholder (pyLower it.type) (ids k)) (pyStrip it.value)))
        (replaceAll (pyStrip it.value) (mkPlaceholder (pyLower it.type) (ids k))
          masked)
        (alSet pmap (pyStrip it.value) (mkPlaceholder (pyLower it.type) (ids k)))
        (alSet_keys_nodup pmap _ _ hnd)
      refine ⟨ih1, ?_⟩
      intro x
      rw [ih2 x, alSet_keys]
      simp only [List.map_cons, List.mem_cons]
      tauto
    · rw [maskItems_cons_rej text sid ids it rest tbl masked pmap k hacc,
        mintedPairs_cons_rej text ids it rest k hacc]
      exact ih k tbl masked pmap hnd

/-! ## Embedding the masked text in surrounding text -/

def extendLast (post : Str) : List Blk → List Blk
  | [] => []
  | [b] => [⟨b.ph, b.orig, b.chunk ++ post⟩]
  | b :: rest => b :: extendLast post rest

/-- The decomposition of `pre ++ masked ++ post` obtained from the
decomposition of `masked`. -/
def embedSt (pre post : Str) (st : MSt) : MSt :=
  match st.2 with
  | [] => (pre ++ st.1 ++ post, [])
  | _ :: _ => (pre ++ st.1, extendLast post st.2)

theorem extendLast_render (post : Str) :
    ∀ bs : List Blk, bs ≠ [] →
      renderB (extendLast post bs) = renderB bs ++ post := by
  intro bs
  induction bs with
  | nil => intro h; exact absurd rfl h
  | cons b rest ih =>
    intro _
    cases rest with
    | nil =>
      show renderB [⟨b.ph, b.orig, b.chunk ++ post⟩] = _
      simp [renderB]
    | cons b2 rest2 =>
      show renderB (b :: extendLast post (b2 :: rest2)) = _
      rw [renderB_cons, renderB_cons, ih (by simp)]
      simp

theorem extendLast_unrender (post : Str) :
    ∀ bs : List Blk, bs ≠ [] →
      unrenderB (extendLast post bs) = unrenderB bs ++ post := by
  intro bs
  induction bs with
  | nil => intro h; exact absurd rfl h
  | cons b rest ih =>
    intro _
    cases rest with
    | nil =>
      show unrenderB [⟨b.ph, b.orig, b.chunk ++ post⟩] = _
      simp [unrenderB]
    | cons b2 rest2 =>
      show unrenderB (b :: extendLast post (b2 :: rest2)) = _
      rw [unrenderB_cons, unrenderB_cons, ih (by simp)]
      simp

theorem extendLast_mem (post : Str) :
    ∀ (bs : List Blk) (b' : Blk), b' ∈ extendLast post bs →
      ∃ b ∈ bs, b'.ph = b.ph ∧ b'.orig = b.orig ∧
        (b'.chunk = b.chunk ∨ b'.chunk = b.chunk ++ post) := by
  intro bs
  induction bs with
  | nil => intro b' h; simp [extendLast] at h
  | cons b rest ih =>
    intro b' h
    cases rest with
    | nil =>
      have h2 : b' = ⟨b.ph, b.orig, b.chunk ++ post⟩ := by
        simpa [extendLast] using h
      exact ⟨b, by simp, by rw [h2], by rw [h2], Or.inr (by rw [h2])⟩
    | cons b2 rest2 =>
      have h2 : b' ∈ b :: extendLast post (b2 :: rest2) := h
      rcases List.mem_cons.mp h2 with h3 | h3
      · exact ⟨b, by simp, by rw [h3], by rw [h3], Or.inl (by rw [h3])⟩
      · obtain ⟨b0, hb0, h4⟩ := ih b' h3
        exact ⟨b0, by simp [hb0], h4⟩

theorem embed_render (pre post : Str) (st : MSt) :
    renderSt (embedSt pre post st) = pre ++ renderSt st ++ post := by
  obtain ⟨h0, bs⟩ := st
  cases bs with
  | nil =>
    show (pre ++ h0 ++ post) ++ renderB [] = pre ++ (h0 ++ renderB []) ++ post
    simp [renderB]
  | cons b rest =>
    show (pre ++ h0) ++ renderB (extendLast post (b :: rest)) =
      pre ++ (h0 ++ renderB (b :: rest)) ++ post
    rw [extendLast_render post (b :: rest) (by simp)]
    simp

theorem embed_unrender (pre post : Str) (st : MSt) :
    unrenderSt (embedSt pre post st) = pre ++ unrenderSt st ++ post := by
  obtain ⟨h0, bs⟩ := st
  cases bs with
  | nil =>
    show (pre ++ h0 ++ post) ++ unrenderB [] = pre ++ (h0 ++ unrenderB []) ++ post
    simp [unrenderB]
  | cons b rest =>
    show (pre ++ h0) ++ unrenderB (extendLast post (b :: rest)) =
      pre ++ (h0 ++ unrenderB (b :: rest)) ++ post
    rw [extendLast_unrender post (b :: rest) (by simp)]
    simp

theorem embed_wf (pre post : Str) (st : MSt) (hwf : WfSt st)
    (hpre : noBr pre = true) (hpost : noBr post = true) :
    WfSt (embedSt pre post st) := by
  obtain ⟨h0, bs⟩ := st
  obtain ⟨hwf1, hwf2⟩ := hwf
  cases bs with
  | nil =>
    refine ⟨?_, fun b hb => absurd hb (List.not_mem_nil b)⟩
    show noBr (pre ++ h0 ++ post) = true
    rw [List.append_assoc, noBr_append, noBr_append]
    simp only [Bool.and_eq_true]
    exact ⟨hpre, hwf1, hpost⟩
  | cons b rest =>
    constructor
    · show noBr (pre ++ h0) = true
      rw [noBr_append]
      simp only [Bool.and_eq_true]
      exact ⟨hpre, hwf1⟩
    · intro b' hb'
      obtain ⟨b0, hb0, _, _, hc⟩ := extendLast_mem post (b :: rest) b' hb'
      have hb0' : noBr b0.chunk = true := hwf2 b0 hb0
      rcases hc with hc | hc
      · rw [hc]; exact hb0'
      · rw [hc, noBr_append]
        simp only [Bool.and_eq_true]
        exact ⟨hb0', hpost⟩

theorem embed_mem (pre post : Str) (st : MSt) (b' : Blk)
    (hb' : b' ∈ (embedSt pre post st).2) :
    ∃ b ∈ st.2, b'.ph = b.ph ∧ b'.orig = b.orig := by
  obtain ⟨h0, bs⟩ := st
  cases bs with
  | nil => exact absurd hb' (List.not_mem_nil b')
  | cons b rest =>
    obtain ⟨b0, hb0, h1, h2, _⟩ := extendLast_mem post (b :: rest) b' hb'
    exact ⟨b0, hb0, h1, h2⟩

/-! ## Shape facts about the recorded pairs -/

/-- The interior of a placeholder token: the text between the brackets. -/
def phInterior (p : Str) : Str := (p.drop 1).dropLast

theorem phInterior_eq (w : Str) : phInterior (('[' :: w) ++ [']']) = w := by
  simp [phInterior]

theorem mintedPairs_shape (text : Str) (ids : Nat → Str) :
    ∀ (items : List RawItem) (k : Nat) (pv : Str × Str),
      pv ∈ mintedPairs text ids items k →
      ∃ ty id8, pv.1 = mkPlaceholder ty id8 := by
  intro items
  induction items with
  | nil => intro k pv h; simp [mintedPairs] at h
  | cons it rest ih =>
    intro k pv h
    by_cases hacc : (!(pyStrip it.value).isEmpty && inStr (pyStrip it.value) text) = true
    · rw [mintedPairs_cons_acc text ids it rest k hacc] at h
      rcases List.mem_cons.mp h with rfl | h2
      · exact ⟨pyLower it.type, ids k, rfl⟩
      · exact ih (k + 1) pv h2
    · rw [mintedPairs_cons_rej text ids it rest k hacc] at h
      exact ih k pv h

/-- Unfolding of a successful `mask` call on a fresh detector with a
generated session id. -/
theorem mask_empty_eq (text : Str) (freshSid : String) (items : List RawItem)
    (ids : Nat → Str) :
    PIIDetector.mask ⟨[]⟩ text none freshSid (Except.ok items) ids =
      (⟨(maskItems text freshSid ids items ([(freshSid, [])], text, [], 0)).1⟩,
       ⟨(maskItems text freshSid ids items ([(freshSid, [])], text, [], 0)).2.1,
        freshSid,
        (maskItems text freshSid ids items
          ([(freshSid, [])], text, [], 0)).2.2.1.length,
        (maskItems text freshSid ids items
          ([(freshSid, [])], text, [], 0)).2.2.1⟩) := rfl

theorem unmask_eq_foldl (d : PIIDetector) (M : Str) (sid : String)
    (E : List (Str × Str)) (h : alGet d.pii_mappings sid = some E) :
    d.unmask M sid = E.foldl (fun acc pv => replaceAll pv.1 pv.2 acc) M := by
  simp [PIIDetector.unmask, h]

/-- C1 (amended): the mask/unmask round trip restores the original text —
also when the masked text is embedded in surrounding text — provided the
original text and the surrounding text contain no bracket characters, the
minted placeholders have bracket-free interiors and are pairwise distinct,
and no recorded value occurs inside a minted placeholder. -/
theorem mask_unmask_roundtrip (text : Str) (items : List RawItem)
    (ids : Nat → Str) (freshSid : String) (pre post : Str)
    (htext : noBr text = true)
    (hint : ∀ pv ∈ mintedPairs text ids items 0, noBr (phInterior pv.1) = true)
    (hnd : ((mintedPairs text ids items 0).map Prod.fst).Nodup)
    (hvals : ∀ pv ∈ mintedPairs text ids items 0,
      ∀ qw ∈ mintedPairs text ids items 0, inStr pv.2 qw.1 = false)
    (hpre : noBr pre = true) (hpost : noBr post = true) :
    PIIDetector.unmask
        (PIIDetector.mask ⟨[]⟩ text none freshSid (Except.ok items) ids).1
        (PIIDetector.mask ⟨[]⟩ text none freshSid
          (Except.ok items) ids).2.masked_text
        (PIIDetector.mask ⟨[]⟩ text none freshSid
          (Except.ok items) ids).2.session_id = text ∧
    PIIDetector.unmask
        (PIIDetector.mask ⟨[]⟩ text none freshSid (Except.ok items) ids).1
        (pre ++ (PIIDetector.mask ⟨[]⟩ text none freshSid
          (Except.ok items) ids).2.masked_text ++ post)
        (PIIDetector.mask ⟨[]⟩ text none freshSid
          (Except.ok items) ids).2.session_id = pre ++ text ++ post := by
  rw [mask_empty_eq]
  have hshapes : ∀ pv ∈ mintedPairs text ids items 0,
      ∃ w, pv.1 = ('[' :: w) ++ [']'] ∧ noBr w = true := by
    intro pv hpv
    obtain ⟨ty, id8, heq⟩ := mintedPairs_shape text ids items 0 pv hpv
    refine ⟨pyUpper ty ++ '_' :: id8, by rw [heq, mkPlaceholder_eq], ?_⟩
    have := hint pv hpv
    rwa [heq, mkPlaceholder_eq, phInterior_eq] at this
  have hvnb : ∀ pv ∈ mintedPairs text ids items 0, noBr pv.2 = true := by
    intro pv hpv
    exact noBr_of_inStr htext (mintedPairs_val text ids items 0 pv hpv).2
  -- the table after the pass holds exactly the recorded pairs
  have htbl : alGet (maskItems text freshSid ids items
      ([(freshSid, [])], text, [], 0)).1 freshSid =
      some (mintedPairs text ids items 0) := by
    have h0 : alGet [(freshSid, [])] freshSid =
        some ([] : List (Str × Str)) := by simp [alGet]
    have := maskItems_table text freshSid ids items 0 [(freshSid, [])] text []
      [] h0 (by simpa using hnd)
    simpa using this
  -- the masked text is the rendering of a well-formed decomposition
  obtain ⟨stF, hwfF, hmaskF, hunrF, hblkF⟩ := mask_ghost text freshSid ids
    (mintedPairs text ids items 0) htext hshapes hvals items 0 (text, [])
    [(freshSid, [])] []
    ⟨htext, fun b hb => absurd hb (List.not_mem_nil b)⟩
    (fun b hb => absurd hb (List.not_mem_nil b))
    (fun pv hpv => hpv)
  have hrend : renderSt (text, ([] : List Blk)) = text := by
    simp [renderSt, renderB]
  rw [hrend] at hmaskF
  have hunr : unrenderSt stF = text := by
    rw [hunrF]
    simp [unrenderSt, unrenderB]
  constructor
  · show PIIDetector.unmask
      ⟨(maskItems text freshSid ids items ([(freshSid, [])], text, [], 0)).1⟩
      (maskItems text freshSid ids items ([(freshSid, [])], text, [], 0)).2.1
      freshSid = text
    rw [unmask_eq_foldl _ _ _ _ htbl, hmaskF,
      unmask_fold (mintedPairs text ids items 0) stF hwfF hshapes hvnb hnd hblkF,
      hunr]
  · show PIIDetector.unmask
      ⟨(maskItems text freshSid ids items ([(freshSid, [])], text, [], 0)).1⟩
      (pre ++ (maskItems text freshSid ids items
        ([(freshSid, [])], text, [], 0)).2.1 ++ post)
      freshSid = pre ++ text ++ post
    rw [unmask_eq_foldl _ _ _ _ htbl, hmaskF, ← embed_render pre post stF,
      unmask_fold (mintedPairs text ids items 0) (embedSt pre post stF)
        (embed_wf pre post stF hwfF hpre hpost) hshapes hvnb hnd ?hblk,
      embed_unrender pre post stF, hunr]
    case hblk =>
      intro b' hb'
      obtain ⟨b, hb, h1, h2⟩ := embed_mem pre post stF b' hb'
      rw [h1, h2]
      exact hblkF b hb

/-- A deterministic stream of placeholder identifier fragments, standing in
for `str(uuid.uuid4())[:8]` in concrete runs. -/
def sampleIds : Nat → Str
  | 0 => "00000000".toList
  | 1 => "11111111".toList
  | _ => "22222222".toList

/-- C1 (counterexample): for the text `"NAME x"` with classifier items
`x : name` and `NAME : other` — both literal substrings of the text — the
round trip does not restore the text: replacing the second value corrupts
the placeholder minted for the first. -/
theorem c1_roundtrip_counterexample :
    PIIDetector.unmask
        (PIIDetector.mask ⟨[]⟩ "NAME x".toList none "s"
          (Except.ok [⟨"x".toList, "name".toList⟩,
            ⟨"NAME".toList, "other".toList⟩]) sampleIds).1
        (PIIDetector.mask ⟨[]⟩ "NAME x".toList none "s"
          (Except.ok [⟨"x".toList, "name".toList⟩,
            ⟨"NAME".toList, "other".toList⟩]) sampleIds).2.masked_text
        (PIIDetector.mask ⟨[]⟩ "NAME x".toList none "s"
          (Except.ok [⟨"x".toList, "name".toList⟩,
            ⟨"NAME".toList, "other".toList⟩]) sampleIds).2.session_id
      ≠ "NAME x".toList := by decide

/-- C1 (witness): the spec's concrete scenario satisfies the side
conditions, and the round trip — plain and embedded — restores the text. -/
theorem c1_roundtrip_witness :
    PIIDetector.unmask
        (PIIDetector.mask ⟨[]⟩ "My SSN is 123-45-6789".toList none "s"
          (Except.ok [⟨"123-45-6789".toList, "ssn".toList⟩]) sampleIds).1
        (PIIDetector.mask ⟨[]⟩ "My SSN is 123-45-6789".toList none "s"
          (Except.ok [⟨"123-45-6789".toList, "ssn".toList⟩])
            sampleIds).2.masked_text
        (PIIDetector.mask ⟨[]⟩ "My SSN is 123-45-6789".toList none "s"
          (Except.ok [⟨"123-45-6789".toList, "ssn".toList⟩])
            sampleIds).2.session_id
      = "My SSN is 123-45-6789".toList ∧
    PIIDetector.unmask
        (PIIDetector.mask ⟨[]⟩ "My SSN is 123-45-6789".toList none "s"
          (Except.ok [⟨"123-45-6789".toList, "ssn".toList⟩]) sampleIds).1
        ("Re: ".toList ++ (PIIDetector.mask ⟨[]⟩
          "My SSN is 123-45-6789".toList none "s"
          (Except.ok [⟨"123-45-6789".toList, "ssn".toList⟩])
            sampleIds).2.masked_text ++ "!".toList)
        (PIIDetector.mask ⟨[]⟩ "My SSN is 123-45-6789".toList none "s"
          (Except.ok [⟨"123-45-6789".toList, "ssn".toList⟩])
            sampleIds).2.session_id
      = "Re: ".toList ++ "My SSN is 123-45-6789".toList ++ "!".toList :=
  mask_unmask_roundtrip "My SSN is 123-45-6789".toList
    [⟨"123-45-6789".toList, "ssn".toList⟩] sampleIds "s"
    "Re: ".toList "!".toList (by decide) (by decide) (by decide) (by decide)
    (by decide) (by decide)

/-- Two lists with the same members, the first without duplicates, have
equal length and distinct-member count. -/
theorem length_eq_card_of_same_mem {α : Type} [DecidableEq α]
    (l d : List α) (hnd : l.Nodup) (hmem : ∀ x, x ∈ l ↔ x ∈ d) :
    l.length = d.toFinset.card := by
  have h1 : l.toFinset = d.toFinset := by
    apply Finset.ext
    intro x
    simp only [List.mem_toFinset]
    exact hmem x
  rw [← List.toFinset_card_of_nodup hnd, h1]

/-- C3 (amended): items are processed in order, and a placeholder is minted,
recorded in the session's map and reflected in `placeholder_map` for exactly
those items whose stripped value is nonempty and a literal substring of the
ORIGINAL text — even when the value no longer occurs in the progressively
masked text — with `mappings_count` counting the distinct recorded values. -/
theorem mask_records_by_original_text (text : Str) (items : List RawItem)
    (ids : Nat → Str) (freshSid : String)
    (hnd : ((mintedPairs text ids items 0).map Prod.fst).Nodup) :
    alGet (PIIDetector.mask ⟨[]⟩ text none freshSid
        (Except.ok items) ids).1.pii_mappings freshSid =
      some (mintedPairs text ids items 0) ∧
    (PIIDetector.mask ⟨[]⟩ text none freshSid
        (Except.ok items) ids).2.mappings_count =
      ((mintedPairs text ids items 0).map Prod.snd).toFinset.card := by
  rw [mask_empty_eq]
  constructor
  · show alGet (maskItems text freshSid ids items
      ([(freshSid, [])], text, [], 0)).1 freshSid = _
    have h0 : alGet [(freshSid, [])] freshSid =
        some ([] : List (Str × Str)) := by simp [alGet]
    have := maskItems_table text freshSid ids items 0 [(freshSid, [])] text []
      [] h0 (by simpa using hnd)
    simpa using this
  · show (maskItems text freshSid ids items
      ([(freshSid, [])], text, [], 0)).2.2.1.length = _
    obtain ⟨hp1, hp2⟩ := maskItems_pmap text freshSid ids items 0
      [(freshSid, [])] text [] (by simp)
    have hmem : ∀ x, x ∈ (maskItems text freshSid ids items
        ([(freshSid, [])], text, [], 0)).2.2.1.map Prod.fst ↔
        x ∈ (mintedPairs text ids items 0).map Prod.snd := by
      intro x
      rw [hp2 x]
      simp
    rw [← List.length_map _ Prod.fst]
    exact length_eq_card_of_same_mem _ _ hp1 hmem

/-- C3 (counterexample): for `"John Doe"` with items `John Doe : name` then
`John : name`, the value `John` is no longer a substring of the
progressively masked text, yet the code still mints a placeholder for it,
records the pair in the session's map and counts it: `mappings_count = 2`,
not `1`. -/
theorem c3_progressive_counterexample :
    inStr "John".toList
        (PIIDetector.mask ⟨[]⟩ "John Doe".toList none "s"
          (Except.ok [⟨"John Doe".toList, "name".toList⟩,
            ⟨"John".toList, "name".toList⟩]) sampleIds).2.masked_text
      = false ∧
    (PIIDetector.mask ⟨[]⟩ "John Doe".toList none "s"
        (Except.ok [⟨"John Doe".toList, "name".toList⟩,
          ⟨"John".toList, "name".toList⟩]) sampleIds).2.mappings_count = 2 ∧
    alGet (PIIDetector.mask ⟨[]⟩ "John Doe".toList none "s"
        (Except.ok [⟨"John Doe".toList, "name".toList⟩,
          ⟨"John".toList, "name".toList⟩]) sampleIds).1.pii_mappings "s" =
      some [("[NAME_00000000]".toList, "John Doe".toList),
            ("[NAME_11111111]".toList, "John".toList)] := by decide

/-- C3 (witness): the amended characterisation applied to the same input
predicts both recorded entries and the count `2`. -/
theorem c3_progressive_witness :
    alGet (PIIDetector.mask ⟨[]⟩ "John Doe".toList none "s"
        (Except.ok [⟨"John Doe".toList, "name".toList⟩,
          ⟨"John".toList, "name".toList⟩]) sampleIds).1.pii_mappings "s" =
      some (mintedPairs "John Doe".toList sampleIds
        [⟨"John Doe".toList, "name".toList⟩, ⟨"John".toList, "name".toList⟩] 0) ∧
    (PIIDetector.mask ⟨[]⟩ "John Doe".toList none "s"
        (Except.ok [⟨"John Doe".toList, "name".toList⟩,
          ⟨"John".toList, "name".toList⟩]) sampleIds).2.mappings_count =
      ((mintedPairs "John Doe".toList sampleIds
        [⟨"John Doe".toList, "name".toList⟩,
          ⟨"John".toList, "name".toList⟩] 0).map Prod.snd).toFinset.card :=
  mask_records_by_original_text "John Doe".toList
    [⟨"John Doe".toList, "name".toList⟩, ⟨"John".toList, "name".toList⟩]
    sampleIds "s" (by decide)

/-! ## Remaining claim-level lemmas -/

theorem foldl_replaceAll_id (T : Str) :
    ∀ m : List (Str × Str), (∀ pv ∈ m, inStr pv.1 T = false) →
      m.foldl (fun acc pv => replaceAll pv.1 pv.2 acc) T = T := by
  intro m
  induction m with
  | nil => intro _; rfl
  | cons pv rest ih =>
    intro h
    show List.foldl _ (replaceAll pv.1 pv.2 T) rest = T
    rw [replaceAll_no_occ pv.1 pv.2 T (h pv (by simp))]
    exact ih fun qw hq => h qw (by simp [hq])

theorem maskItems_sid_present (text : Str) (sid : String) (ids : Nat → Str) :
    ∀ (items : List RawItem) (tbl : List (String × List (Str × Str)))
      (masked : Str) (pmap : List (Str × Str)) (k : Nat),
      (alGet tbl sid).isSome = true →
      (alGet (maskItems text sid ids items (tbl, masked, pmap, k)).1
        sid).isSome = true := by
  intro items
  induction items with
  | nil => intro tbl masked pmap k h; simpa [maskItems] using h
  | cons it rest ih =>
    intro tbl masked pmap k h
    by_cases hacc : (!(pyStrip it.value).isEmpty && inStr (pyStrip it.value) text) = true
    · rw [maskItems_cons_acc text sid ids it rest tbl masked pmap k hacc]
      exact ih _ _ _ _ (by rw [alGet_alSet_self]; rfl)
    · rw [maskItems_cons_rej text sid ids it rest tbl masked pmap k hacc]
      exact ih _ _ _ _ h

/-- After a successful `mask` call the session's entry exists in the
mappings table (it is initialised before the loop). -/
theorem mask_ok_session_present (d : PIIDetector) (q : Str)
    (osid : Option String) (fsid : String) (items : List RawItem)
    (ids : Nat → Str) :
    (alGet (PIIDetector.mask d q osid fsid (Except.ok items) ids).1.pii_mappings
      (PIIDetector.mask d q osid fsid
        (Except.ok items) ids).2.session_id).isSome = true := by
  show (alGet (maskItems q (osid.getD fsid) ids items
    (if (alGet d.pii_mappings (osid.getD fsid)).isNone then
       alSet d.pii_mappings (osid.getD fsid) []
     else d.pii_mappings, q, [], 0)).1 (osid.getD fsid)).isSome = true
  apply maskItems_sid_present
  by_cases h : (alGet d.pii_mappings (osid.getD fsid)).isNone = true
  · rw [if_pos h, alGet_alSet_self]
    rfl
  · rw [if_neg h]
    cases hx : alGet d.pii_mappings (osid.getD fsid) with
    | none => rw [hx] at h; exact absurd rfl h
    | some m => rfl

/-- C4: fail-open on classifier failure — when the external call raises,
`detect_pii` reports no PII with low confidence instead of propagating, and
`mask` returns the original text unmodified with an empty placeholder map,
a zero count and an untouched mappings table. -/
theorem fail_open_on_classifier_error (text : Str) (e : String)
    (d : PIIDetector) (osid : Option String) (freshSid : String)
    (ids : Nat → Str) :
    (detect_pii text (ChatOutcome.raises e)).has_pii = false ∧
    (detect_pii text (ChatOutcome.raises e)).confidence = "low".toList ∧
    (PIIDetector.mask d text osid freshSid (Except.error e) ids).1 = d ∧
    (PIIDetector.mask d text osid freshSid
      (Except.error e) ids).2.masked_text = text ∧
    (PIIDetector.mask d text osid freshSid
      (Except.error e) ids).2.mappings_count = 0 ∧
    (PIIDetector.mask d text osid freshSid
      (Except.error e) ids).2.placeholder_map = [] :=
  ⟨rfl, rfl, rfl, rfl, rfl, rfl⟩

/-- C6: unmask is the identity on texts free of the session's placeholders —
for an unknown session id it returns every text unchanged, and for a known
session id it returns any text containing no placeholder of that session's
mapping unchanged. -/
theorem unmask_identity (d : PIIDetector) (T : Str) (sid : String) :
    (alGet d.pii_mappings sid = none → d.unmask T sid = T) ∧
    (∀ m, alGet d.pii_mappings sid = some m →
      (∀ pv ∈ m, inStr pv.1 T = false) → d.unmask T sid = T) := by
  constructor
  · intro h
    simp [PIIDetector.unmask, h]
  · intro m hm hno
    rw [unmask_eq_foldl d T sid m hm]
    exact foldl_replaceAll_id T m hno

/-- C6 (witness): an unknown session id, and a known session whose
placeholder does not occur in the text, both leave `"hello"` unchanged. -/
theorem unmask_identity_witness :
    PIIDetector.unmask ⟨[]⟩ "hello".toList "s" = "hello".toList ∧
    PIIDetector.unmask
      ⟨[("s", [("[NAME_00000000]".toList, "John".toList)])]⟩
      "hello".toList "s" = "hello".toList :=
  ⟨(unmask_identity ⟨[]⟩ "hello".toList "s").1 (by decide),
   (unmask_identity ⟨[("s", [("[NAME_00000000]".toList, "John".toList)])]⟩
     "hello".toList "s").2 [("[NAME_00000000]".toList, "John".toList)]
     (by decide) (by decide)⟩

/-- C9: `clear_session` returns whether a mapping existed, removes it, and
afterwards `unmask` returns every text unchanged for that session id. -/
theorem clear_session_spec (d : PIIDetector) (sid : String) :
    (d.clear_session sid).2 = (alGet d.pii_mappings sid).isSome ∧
    alGet (d.clear_session sid).1.pii_mappings sid = none ∧
    ∀ T : Str, (d.clear_session sid).1.unmask T sid = T := by
  unfold PIIDetector.clear_session
  by_cases h : (alGet d.pii_mappings sid).isSome = true
  · rw [if_pos h]
    refine ⟨h.symm, alGet_alDel_self d.pii_mappings sid, ?_⟩
    intro T
    show PIIDetector.unmask ⟨alDel d.pii_mappings sid⟩ T sid = T
    simp [PIIDetector.unmask, alGet_alDel_self]
  · rw [if_neg h]
    have h2 : alGet d.pii_mappings sid = none := by
      cases hx : alGet d.pii_mappings sid with
      | none => rfl
      | some m => rw [hx] at h; exact absurd rfl h
    refine ⟨by rw [h2]; rfl, h2, ?_⟩
    intro T
    simp [PIIDetector.unmask, h2]

/-- C2 (evaluation at the failing input): an entry touched at time 0
survives a purge at 3599; a purge at 3601 does remove it from both tables
but the call raises `RuntimeError: dictionary changed size during
iteration`; with two expired entries only the first is removed before the
pass aborts, leaving the second expired entry in place. -/
theorem purge_old_raises_at_failing_input :
    purge_old ⟨[("a", 1)], [("a", 0)]⟩ 3599 = ⟨⟨[("a", 1)], [("a", 0)]⟩, none⟩ ∧
    purge_old ⟨[("a", 1)], [("a", 0)]⟩ 3601 =
      ⟨⟨[], []⟩, some "dictionary changed size during iteration"⟩ ∧
    purge_old ⟨[("a", 1), ("b", 2)], [("a", 0), ("b", 0)]⟩ 3601 =
      ⟨⟨[("b", 2)], [("b", 0)]⟩,
       some "dictionary changed size during iteration"⟩ := by
  refine ⟨by decide, by decide, by decide⟩

/-- C7: both `retrieve_session_data` and `store_session_data` stamp the
correlator's `last_touched_at` with the current time (and the store also
records the session data). -/
theorem touch_on_access (app : ChatApplication) (c : String) (now : Int)
    (v : Nat) :
    alGet (retrieve_session_data app c now).2.touched c = some now ∧
    alGet (store_session_data app c v now).touched c = some now ∧
    alGet (store_session_data app c v now).session_dict c = some v :=
  ⟨alGet_alSet_self _ _ _, alGet_alSet_self _ _ _, alGet_alSet_self _ _ _⟩

/-- C10: looking up an absent correlator returns `None` yet records a touch
time for it, leaving a `touched` key with no `session_dict` entry. -/
theorem retrieve_absent_correlator (app : ChatApplication) (c : String)
    (now : Int) (h : alGet app.session_dict c = none) :
    (retrieve_session_data app c now).1 = none ∧
    alGet (retrieve_session_data app c now).2.touched c = some now ∧
    alGet (retrieve_session_data app c now).2.session_dict c = none :=
  ⟨h, alGet_alSet_self _ _ _, h⟩

/-- C10 (witness): a lookup of `"c"` on an empty application. -/
theorem retrieve_absent_correlator_witness :
    (retrieve_session_data ⟨[], []⟩ "c" 5).1 = none ∧
    alGet (retrieve_session_data ⟨[], []⟩ "c" 5).2.touched "c" = some 5 ∧
    alGet (retrieve_session_data ⟨[], []⟩ "c" 5).2.session_dict "c" = none :=
  retrieve_absent_correlator ⟨[], []⟩ "c" 5 (by decide)

/-- C8: correlator continuity — two sequential resolutions of the same
correlator return the identical `StatefulGenAI` instance (the second lookup
returns the stored one and constructs nothing, leaving `session_dict`
unchanged), while a resolution of a different, unknown correlator
constructs and returns a distinct instance. -/
theorem correlator_continuity (app0 : ChatApplication) (c c2 : String)
    (t1 t2 t3 : Int) (f1 f2 f3 : Nat)
    (h1 : alGet app0.session_dict c = none)
    (h2 : alGet app0.session_dict c2 = none)
    (hcc : c ≠ c2) (hff : f3 ≠ f1) :
    (resolve_state app0 c t1 f1).2 = f1 ∧
    (resolve_state (resolve_state app0 c t1 f1).1 c t2 f2).2 = f1 ∧
    (resolve_state (resolve_state app0 c t1 f1).1 c t2 f2).1.session_dict =
      (resolve_state app0 c t1 f1).1.session_dict ∧
    (resolve_state (resolve_state (resolve_state app0 c t1 f1).1 c t2
      f2).1 c2 t3 f3).2 = f3 ∧
    (resolve_state (resolve_state (resolve_state app0 c t1 f1).1 c t2
      f2).1 c2 t3 f3).2 ≠ (resolve_state app0 c t1 f1).2 := by
  have e1 : resolve_state app0 c t1 f1 =
      (⟨alSet app0.session_dict c f1,
        alSet (alSet app0.touched c t1) c t1⟩, f1) := by
    simp [resolve_state, retrieve_session_data, store_session_data, h1]
  have e2 : resolve_state (resolve_state app0 c t1 f1).1 c t2 f2 =
      (⟨alSet app0.session_dict c f1,
        alSet (alSet (alSet app0.touched c t1) c t1) c t2⟩, f1) := by
    rw [e1]
    simp [resolve_state, retrieve_session_data, alGet_alSet_self]
  have hget3 : alGet (alSet app0.session_dict c f1) c2 = none := by
    rw [alGet_alSet_ne app0.session_dict c c2 f1 hcc]
    exact h2
  have e3 : resolve_state (resolve_state (resolve_state app0 c t1 f1).1 c t2
      f2).1 c2 t3 f3 =
      (⟨alSet (alSet app0.session_dict c f1) c2 f3,
        alSet (alSet (alSet (alSet (alSet app0.touched c t1) c t1) c t2)
          c2 t3) c2 t3⟩, f3) := by
    rw [e2]
    simp [resolve_state, retrieve_session_data, store_session_data, hget3]
  rw [e3, e2, e1]
  exact ⟨rfl, rfl, rfl, rfl, hff⟩

/-- C8 (witness): two turns of correlator `"a"` then one of `"b"` on an
empty application. -/
theorem correlator_continuity_witness :
    (resolve_state ⟨[], []⟩ "a" 1 10).2 = 10 ∧
    (resolve_state (resolve_state ⟨[], []⟩ "a" 1 10).1 "a" 2 11).2 = 10 ∧
    (resolve_state (resolve_state ⟨[], []⟩ "a" 1 10).1 "a" 2
      11).1.session_dict = (resolve_state ⟨[], []⟩ "a" 1 10).1.session_dict ∧
    (resolve_state (resolve_state (resolve_state ⟨[], []⟩ "a" 1 10).1 "a" 2
      11).1 "b" 3 12).2 = 12 ∧
    (resolve_state (resolve_state (resolve_state ⟨[], []⟩ "a" 1 10).1 "a" 2
      11).1 "b" 3 12).2 ≠ (resolve_state ⟨[], []⟩ "a" 1 10).2 :=
  correlator_continuity ⟨[], []⟩ "a" "b" 1 2 3 10 11 12 (by decide)
    (by decide) (by decide) (by decide)

/-- C5 (counterexample): `ChatSession.execute` has no exception handler — a
failing backend `chat` call propagates out of `execute` instead of being
converted into a textual error response. -/
theorem execute_uncaught_counterexample :
    (ChatSession.execute ⟨[], []⟩ ⟨"hi".toList, []⟩ "corr"
      (fun _ _ => Except.error "boom") 0 7).2 = Except.error "boom" := rfl

/-- C5 (amended): in the MCP client, the chat loop catches a generation
failure, prints `Error: …` and keeps the detector session state for a
retry; in chat2, `ChatSession.execute` propagates the failure uncaught,
though the correlator's stored `ConversationState` survives in the
application's store. -/
theorem turn_failure_semantics (st : MCPState) (query : Str)
    (dOut : ChatOutcome) (items : List RawItem) (ids : Nat → Str)
    (fsid : String) (e : String) (app : ChatApplication) (msg : InMsg)
    (fc : String) (now : Int) (fr : Nat)
    (hpii : (detect_pii query dOut).has_pii = true) :
    (chat_loop_step st query dOut (Except.ok items) ids fsid
        (fun _ => Except.error e) false).2 = "Error: ".toList ++ e.toList ∧
    (chat_loop_step st query dOut (Except.ok items) ids fsid
        (fun _ => Except.error e) false).1.current_session_id =
      some (st.detector.mask query st.current_session_id fsid
        (Except.ok items) ids).2.session_id ∧
    (alGet (chat_loop_step st query dOut (Except.ok items) ids fsid
        (fun _ => Except.error e) false).1.detector.pii_mappings
      (st.detector.mask query st.current_session_id fsid
        (Except.ok items) ids).2.session_id).isSome = true ∧
    (ChatSession.execute app msg fc (fun _ _ => Except.error e) now fr).2 =
      Except.error e ∧
    (alGet (ChatSession.execute app msg fc (fun _ _ => Except.error e) now
        fr).1.session_dict (execCorrelator msg fc)).isSome = true := by
  have hclient : chat_loop_step st query dOut (Except.ok items) ids fsid
      (fun _ => Except.error e) false =
      (⟨(st.detector.mask query st.current_session_id fsid
          (Except.ok items) ids).1,
        some (st.detector.mask query st.current_session_id fsid
          (Except.ok items) ids).2.session_id⟩,
       "Error: ".toList ++ e.toList) := by
    simp [chat_loop_step, process_query, hpii]
  refine ⟨by rw [hclient], by rw [hclient], ?_, ?_, ?_⟩
  · rw [hclient]
    exact mask_ok_session_present st.detector query st.current_session_id
      fsid items ids
  · cases hx : alGet app.session_dict (execCorrelator msg fc) with
    | none =>
      simp [ChatSession.execute, resolve_state, retrieve_session_data,
        store_session_data, hx]
    | some cs =>
      simp [ChatSession.execute, resolve_state, retrieve_session_data, hx]
  · cases hx : alGet app.session_dict (execCorrelator msg fc) with
    | none =>
      simp [ChatSession.execute, resolve_state, retrieve_session_data,
        store_session_data, hx, alGet_alSet_self]
    | some cs =>
      simp [ChatSession.execute, resolve_state, retrieve_session_data, hx,
        alGet_isSome_of_mem _ _ (alGet_mem _ _ hx)]

/-- C5 (witness): with a classifier reporting PII and a failing generator,
the loop prints `Error: boom` and keeps session state; chat2's `execute`
propagates the same failure while the store keeps the correlator's entry. -/
theorem turn_failure_semantics_witness :
    (chat_loop_step ⟨⟨[]⟩, none⟩ "hi".toList
        (ChatOutcome.returnsJson true [] "high".toList) (Except.ok []) sampleIds
        "s" (fun _ => Except.error "boom") false).2 =
      "Error: ".toList ++ "boom".toList ∧
    (chat_loop_step ⟨⟨[]⟩, none⟩ "hi".toList
        (ChatOutcome.returnsJson true [] "high".toList) (Except.ok []) sampleIds
        "s" (fun _ => Except.error "boom") false).1.current_session_id =
      some (PIIDetector.mask ⟨[]⟩ "hi".toList none "s"
        (Except.ok []) sampleIds).2.session_id ∧
    (alGet (chat_loop_step ⟨⟨[]⟩, none⟩ "hi".toList
        (ChatOutcome.returnsJson true [] "high".toList) (Except.ok []) sampleIds
        "s" (fun _ => Except.error "boom") false).1.detector.pii_mappings
      (PIIDetector.mask ⟨[]⟩ "hi".toList none "s"
        (Except.ok []) sampleIds).2.session_id).isSome = true ∧
    (ChatSession.execute ⟨[], []⟩ ⟨"hi".toList, []⟩ "c"
      (fun _ _ => Except.error "boom") 0 7).2 = Except.error "boom" ∧
    (alGet (ChatSession.execute ⟨[], []⟩ ⟨"hi".toList, []⟩ "c"
        (fun _ _ => Except.error "boom") 0 7).1.session_dict
      (execCorrelator ⟨"hi".toList, []⟩ "c")).isSome = true :=
  turn_failure_semantics ⟨⟨[]⟩, none⟩ "hi".toList
    (ChatOutcome.returnsJson true [] "high".toList) [] sampleIds "s" "boom"
    ⟨[], []⟩ ⟨"hi".toList, []⟩ "c" 0 7 (by decide)
